import Mathlib

/-!
# Verification of the overlay merge cursor (`kv/memdb/memory_mutation_cursor.go`)

Shallow embedding of the `memoryMutationCursor` of the erigon-lib staged
key-value mutation layer, together with proofs about its scan, seek and merge
behaviour.

Modelling conventions:
* Go byte slices (`[]byte`) are `List Nat`; a possibly-`nil` slice is an
  `Option (List Nat)` where `none` is Go `nil` and `some l` a non-nil slice
  (possibly empty).  `bytes.Equal` / `bytes.Compare` treat `nil` like the
  empty slice, which the embedding mirrors (`goBytes`).
* The base cursor and the overlay cursor (external collaborators of the
  source) are modelled as positions into a fixed list of entries.
* The mutation context and the table registry are external to the source
  file; they are modelled from the spec as an abstract environment
  (`Env`): a cleared flag, a tombstone predicate and an optional table
  configuration.
-/

namespace MemCursor

/-- A byte string. -/
abbrev Bytes := List Nat

/-- Lexicographic byte comparison, Go `bytes.Compare`. -/
def bytesCompare : Bytes → Bytes → Ordering
  | [], [] => .eq
  | [], _ :: _ => .lt
  | _ :: _, [] => .gt
  | a :: as, b :: bs =>
    if a < b then .lt
    else if b < a then .gt
    else bytesCompare as bs

/-- Go `nil` byte slices behave as empty in `bytes.Equal` / `bytes.Compare`. -/
def goBytes : Option Bytes → Bytes
  | none => []
  | some b => b

/-- Go `bytes.Equal` on possibly-nil slices. -/
def goEqual (a b : Option Bytes) : Bool := goBytes a == goBytes b

/-- Go `bytes.Compare` on possibly-nil slices. -/
def goCompare (a b : Option Bytes) : Ordering := bytesCompare (goBytes a) (goBytes b)

theorem bytesCompare_eq_iff : ∀ {a b : Bytes}, bytesCompare a b = .eq ↔ a = b := by
  intro a
  induction a with
  | nil => intro b; cases b <;> simp [bytesCompare]
  | cons x as ih =>
    intro b
    cases b with
    | nil => simp [bytesCompare]
    | cons y bs =>
      by_cases hxy : x < y
      · simp [bytesCompare, hxy]
        intro h; omega
      · by_cases hyx : y < x
        · simp [bytesCompare, hxy, hyx]
          intro h; omega
        · have hxyeq : x = y := by omega
          simp [bytesCompare, hxy, hyx, hxyeq, ih]

theorem bytesCompare_self (a : Bytes) : bytesCompare a a = .eq :=
  bytesCompare_eq_iff.mpr rfl

theorem bytesCompare_swap : ∀ (a b : Bytes), bytesCompare b a = (bytesCompare a b).swap := by
  intro a
  induction a with
  | nil => intro b; cases b <;> simp [bytesCompare, Ordering.swap]
  | cons x as ih =>
    intro b
    cases b with
    | nil => simp [bytesCompare, Ordering.swap]
    | cons y bs =>
      by_cases hxy : x < y
      · have : ¬ y < x := by omega
        simp [bytesCompare, hxy, this, Ordering.swap]
      · by_cases hyx : y < x
        · simp [bytesCompare, hxy, hyx, Ordering.swap]
        · simp [bytesCompare, hxy, hyx, ih]

/-- Byte-string less-than: `bytesCompare` answers `lt`. -/
def bytesLt (a b : Bytes) : Prop := bytesCompare a b = .lt

/-- Byte-string less-or-equal: `bytesCompare` does not answer `gt`. -/
def bytesLe (a b : Bytes) : Prop := bytesCompare a b ≠ .gt

instance (a b : Bytes) : Decidable (bytesLt a b) :=
  inferInstanceAs (Decidable (bytesCompare a b = .lt))
instance (a b : Bytes) : Decidable (bytesLe a b) :=
  inferInstanceAs (Decidable (bytesCompare a b ≠ .gt))

theorem bytesLt_trans : ∀ {a b c : Bytes}, bytesLt a b → bytesLt b c → bytesLt a c := by
  intro a
  induction a with
  | nil =>
    intro b c hab hbc
    cases b with
    | nil => exact hbc
    | cons y bs =>
      cases c with
      | nil => simp [bytesLt, bytesCompare] at hbc
      | cons z cs => simp [bytesLt, bytesCompare]
  | cons x as ih =>
    intro b c hab hbc
    cases b with
    | nil => simp [bytesLt, bytesCompare] at hab
    | cons y bs =>
      cases c with
      | nil => simp [bytesLt, bytesCompare] at hbc
      | cons z cs =>
        simp only [bytesLt, bytesCompare] at hab hbc ⊢
        by_cases hxy : x < y
        · by_cases hyz : y < z
          · have hxz : x < z := by omega
            simp [hxz]
          · by_cases hzy : z < y
            · simp [hyz, hzy] at hbc
            · have hyzeq : y = z := by omega
              subst hyzeq
              simp [hxy]
        · by_cases hyx : y < x
          · simp [hxy, hyx] at hab
          · have hxyeq : x = y := by omega
            subst hxyeq
            by_cases hyz : x < z
            · simp [hyz]
            · by_cases hzy : z < x
              · simp [hyz, hzy] at hbc
              · simp [hyz, hzy] at hbc ⊢
                exact ih (by simpa [bytesLt, hxy] using hab) hbc

theorem bytesLe_iff (a b : Bytes) : bytesLe a b ↔ bytesLt a b ∨ a = b := by
  constructor
  · intro h
    rcases hc : bytesCompare a b with _ | _ | _
    · exact Or.inl hc
    · exact Or.inr (bytesCompare_eq_iff.mp hc)
    · exact absurd hc h
  · intro h
    rcases h with h | h
    · simp only [bytesLe, bytesLt] at h ⊢
      simp [h]
    · subst h
      simp [bytesLe, bytesCompare_self]

theorem bytesLt_irrefl (a : Bytes) : ¬ bytesLt a a := by
  simp [bytesLt, bytesCompare_self]

theorem bytesLt_asymm {a b : Bytes} (h : bytesLt a b) : ¬ bytesLt b a := by
  intro h'
  exact bytesLt_irrefl a (bytesLt_trans h h')

theorem bytesLe_trans {a b c : Bytes} (hab : bytesLe a b) (hbc : bytesLe b c) :
    bytesLe a c := by
  rcases (bytesLe_iff a b).mp hab with h | h
  · rcases (bytesLe_iff b c).mp hbc with h' | h'
    · exact (bytesLe_iff a c).mpr (Or.inl (bytesLt_trans h h'))
    · subst h'; exact (bytesLe_iff a b).mpr (Or.inl h)
  · subst h; exact hbc

theorem bytesLt_of_lt_of_le {a b c : Bytes} (hab : bytesLt a b) (hbc : bytesLe b c) :
    bytesLt a c := by
  rcases (bytesLe_iff b c).mp hbc with h | h
  · exact bytesLt_trans hab h
  · subst h; exact hab

theorem bytesLe_of_not_gt {a b : Bytes} (h : bytesCompare a b ≠ .gt) : bytesLe a b := h

theorem bytesLt_iff_gt_swap {a b : Bytes} : bytesCompare a b = .gt ↔ bytesLt b a := by
  unfold bytesLt
  rw [bytesCompare_swap b a]
  rcases hcb : bytesCompare b a with _ | _ | _ <;> simp [hcb, Ordering.swap]

theorem bytes_trichotomy (a b : Bytes) : bytesLt a b ∨ a = b ∨ bytesLt b a := by
  rcases hc : bytesCompare a b with _ | _ | _
  · exact Or.inl hc
  · exact Or.inr (Or.inl (bytesCompare_eq_iff.mp hc))
  · exact Or.inr (Or.inr (bytesLt_iff_gt_swap.mp hc))

end MemCursor
namespace MemCursor

/-- A stored entry: a (key, value) pair of byte strings. -/
abbrev Entry := Bytes × Bytes

/-- Strict merge order on entries: by key, then by value (dup-sort order). -/
def entryLt (a b : Entry) : Prop :=
  bytesLt a.1 b.1 ∨ (a.1 = b.1 ∧ bytesLt a.2 b.2)

/-- Non-strict merge order on entries. -/
def entryLe (a b : Entry) : Prop :=
  bytesLt a.1 b.1 ∨ (a.1 = b.1 ∧ bytesLe a.2 b.2)

instance (a b : Entry) : Decidable (entryLt a b) :=
  inferInstanceAs (Decidable (bytesLt a.1 b.1 ∨ (a.1 = b.1 ∧ bytesLt a.2 b.2)))
instance (a b : Entry) : Decidable (entryLe a b) :=
  inferInstanceAs (Decidable (bytesLt a.1 b.1 ∨ (a.1 = b.1 ∧ bytesLe a.2 b.2)))

theorem entryLe_of_lt {a b : Entry} (h : entryLt a b) : entryLe a b := by
  rcases h with h | ⟨hk, hv⟩
  · exact Or.inl h
  · exact Or.inr ⟨hk, (bytesLe_iff _ _).mpr (Or.inl hv)⟩

theorem entryLe_refl (a : Entry) : entryLe a a :=
  Or.inr ⟨rfl, (bytesLe_iff _ _).mpr (Or.inr rfl)⟩

theorem entryLt_trans {a b c : Entry} (hab : entryLt a b) (hbc : entryLt b c) :
    entryLt a c := by
  rcases hab with h | ⟨hk, hv⟩ <;> rcases hbc with h' | ⟨hk', hv'⟩
  · exact Or.inl (bytesLt_trans h h')
  · exact Or.inl (hk' ▸ h)
  · exact Or.inl (hk ▸ h')
  · exact Or.inr ⟨hk.trans hk', bytesLt_trans hv hv'⟩

theorem entryLe_trans {a b c : Entry} (hab : entryLe a b) (hbc : entryLe b c) :
    entryLe a c := by
  rcases hab with h | ⟨hk, hv⟩ <;> rcases hbc with h' | ⟨hk', hv'⟩
  · exact Or.inl (bytesLt_trans h h')
  · exact Or.inl (hk' ▸ h)
  · exact Or.inl (hk ▸ h')
  · exact Or.inr ⟨hk.trans hk', bytesLe_trans hv hv'⟩

theorem entryLe_trans_lt {a b c : Entry} (hab : entryLe a b) (hbc : entryLt b c) :
    entryLe a c := entryLe_trans hab (entryLe_of_lt hbc)

theorem entryLt_of_lt_of_le {a b c : Entry} (hab : entryLt a b) (hbc : entryLe b c) :
    entryLt a c := by
  rcases hab with h | ⟨hk, hv⟩ <;> rcases hbc with h' | ⟨hk', hv'⟩
  · exact Or.inl (bytesLt_trans h h')
  · exact Or.inl (hk' ▸ h)
  · exact Or.inl (hk ▸ h')
  · exact Or.inr ⟨hk.trans hk', bytesLt_of_lt_of_le hv hv'⟩

/-- Table configuration from the `kv.ChaindataTablesCfg` registry.
`flagsDupSort` models `(Flags & kv.DupSort) != 0`. -/
structure TableCfgItem where
  flagsDupSort : Bool
  autoDupSortKeysConversion : Bool
  dupFromLen : Nat
  dupToLen : Nat

/-- Modelled from the spec: the external collaborators of the cursor for one
fixed table — `kv.ChaindataTablesCfg[table]` (absent ⇒ `cfg = none`),
`mutation.isTableCleared(table)` and `mutation.isEntryDeleted(table, k)`
(the tombstone set).  The mutation context itself (`memory_mutation.go`)
is not part of the source under verification. -/
structure Env where
  cfg : Option TableCfgItem
  tableCleared : Bool
  entryDeleted : Bytes → Bool

/-- Whether the table is dup-sorted: `(config.Flags & kv.DupSort) != 0`,
with the zero-value config (absent table) giving `false`. -/
def Env.dupSort (env : Env) : Bool :=
  match env.cfg with
  | some c => c.flagsDupSort
  | none => false

/-- The auto-dupsort prefix length used by `skipIntersection`:
`config.DupFromLen - config.DupToLen` when the table is configured with
`AutoDupSortKeysConversion`, else `0`. -/
def Env.dupsortOffset (env : Env) : Nat :=
  match env.cfg with
  | some c => if c.autoDupSortKeysConversion then c.dupFromLen - c.dupToLen else 0
  | none => 0

/-- A registry is well formed when an auto-dupsort table splits a strictly
longer logical key, `dup_to_len < dup_from_len` (glossary §3: a physical key
of `dup_to_len` bytes plus a non-empty value prefix). -/
def Env.WF (env : Env) : Prop :=
  ∀ c, env.cfg = some c → c.autoDupSortKeysConversion = true → c.dupToLen < c.dupFromLen

/-- An underlying MDBX cursor (base or overlay side), modelled as a sorted
list of entries plus a position.  A read at `pos ≥ entries.length` returns
`nil` (Go `(nil, nil, nil)` for not-found). -/
structure SubCursor where
  entries : List Entry
  pos : Nat

/-- The (key, value) visible at position `p`, as possibly-nil Go slices. -/
def SubCursor.read (c : SubCursor) (p : Nat) : Option Bytes × Option Bytes :=
  match c.entries[p]? with
  | some e => (some e.1, some e.2)
  | none => (none, none)

/-- `First`: position at the smallest entry. -/
def SubCursor.first (c : SubCursor) : SubCursor × Option Bytes × Option Bytes :=
  ({ c with pos := 0 }, c.read 0)

/-- `Next`: advance one position. -/
def SubCursor.next (c : SubCursor) : SubCursor × Option Bytes × Option Bytes :=
  ({ c with pos := c.pos + 1 }, c.read (c.pos + 1))

/-- `NextDup`: advance one position if the next entry has the same key,
else report not-found and stay. -/
def SubCursor.nextDup (c : SubCursor) : SubCursor × Option Bytes × Option Bytes :=
  match c.entries[c.pos]?, c.entries[c.pos + 1]? with
  | some e, some e' =>
    if e'.1 = e.1 then ({ c with pos := c.pos + 1 }, some e'.1, some e'.2)
    else (c, none, none)
  | _, _ => (c, none, none)

/-- Linear search for the least satisfying index, structurally recursive on
the remaining suffix (`p` tracks the absolute index of the suffix head). -/
def findIdxFromAux (f : Entry → Bool) : List Entry → Nat → Option Nat
  | [], _ => none
  | e :: rest, p => if f e then some p else findIdxFromAux f rest (p + 1)

/-- Least index `i ≥ p` of `l` whose entry satisfies `f`, if any. -/
def findIdxFrom (f : Entry → Bool) (l : List Entry) (p : Nat) : Option Nat :=
  findIdxFromAux f (l.drop p) p

/-- `NextNoDup`: advance to the first entry of the next key group,
else report not-found and stay. -/
def SubCursor.nextNoDup (c : SubCursor) : SubCursor × Option Bytes × Option Bytes :=
  match c.entries[c.pos]? with
  | none => (c, none, none)
  | some e =>
    match findIdxFrom (fun e' => e'.1 ≠ e.1) c.entries (c.pos + 1) with
    | some j => ({ c with pos := j }, c.read j)
    | none => (c, none, none)

/-- `Seek(k)`: position at the first entry with key ≥ `k`. -/
def SubCursor.seek (c : SubCursor) (k : Bytes) : SubCursor × Option Bytes × Option Bytes :=
  match findIdxFrom (fun e => decide (bytesLe k e.1)) c.entries 0 with
  | some j => ({ c with pos := j }, c.read j)
  | none => ({ c with pos := c.entries.length }, none, none)

/-- `SeekExact(k)`: position at the first entry with key exactly `k`. -/
def SubCursor.seekExact (c : SubCursor) (k : Bytes) : SubCursor × Option Bytes × Option Bytes :=
  match findIdxFrom (fun e => e.1 = k) c.entries 0 with
  | some j => ({ c with pos := j }, c.read j)
  | none => ({ c with pos := c.entries.length }, none, none)

/-- `SeekBothRange(k, v)`: position at the first entry with key exactly `k`
and value ≥ `v`; returns the value only. -/
def SubCursor.seekBothRange (c : SubCursor) (k v : Bytes) : SubCursor × Option Bytes :=
  match findIdxFrom (fun e => e.1 = k ∧ bytesLe v e.2) c.entries 0 with
  | some j => ({ c with pos := j }, (c.read j).2)
  | none => ({ c with pos := c.entries.length }, none)

/-- `Last`: position at the greatest entry. -/
def SubCursor.last (c : SubCursor) : SubCursor × Option Bytes × Option Bytes :=
  match c.entries.length with
  | 0 => ({ c with pos := 0 }, none, none)
  | n + 1 => ({ c with pos := n }, c.read n)

/-- `Current`: the entry at the current position. -/
def SubCursor.current (c : SubCursor) : Option Bytes × Option Bytes :=
  c.read c.pos

end MemCursor
namespace MemCursor

theorem get?_some_lt {l : List Entry} {p : Nat} {e : Entry} (h : l[p]? = some e) :
    p < l.length := by
  by_contra hge
  rw [List.getElem?_eq_none (by omega)] at h
  exact Option.noConfusion h

theorem findIdxFromAux_some {f : Entry → Bool} :
    ∀ {m : List Entry} {p j : Nat}, findIdxFromAux f m p = some j →
      p ≤ j ∧ j - p < m.length ∧ (∃ e, m[j - p]? = some e ∧ f e = true) ∧
      ∀ i, i < j - p → ∀ e', m[i]? = some e' → f e' = false := by
  intro m
  induction m with
  | nil => intro p j h; simp [findIdxFromAux] at h
  | cons e rest ih =>
    intro p j h
    unfold findIdxFromAux at h
    by_cases hf : f e
    · rw [if_pos hf] at h
      obtain rfl : p = j := by simpa using h
      refine ⟨Nat.le_refl _, by simp, ⟨e, by simp, hf⟩, ?_⟩
      intro i hi
      omega
    · rw [if_neg hf] at h
      obtain ⟨h1, h2, ⟨e', he', hfe'⟩, h4⟩ := ih h
      have hjp : j - p = (j - (p + 1)) + 1 := by omega
      refine ⟨by omega, by simp; omega, ⟨e', ?_, hfe'⟩, ?_⟩
      · rw [hjp]
        simpa using he'
      · intro i hi e'' he''
        cases i with
        | zero =>
          simp at he''
          subst he''
          simpa using hf
        | succ i' =>
          simp at he''
          exact h4 i' (by omega) e'' he''

theorem findIdxFromAux_none {f : Entry → Bool} :
    ∀ {m : List Entry} {p : Nat}, findIdxFromAux f m p = none →
      ∀ (i : Nat) (e : Entry), m[i]? = some e → f e = false := by
  intro m
  induction m with
  | nil => intro p h i e he; simp at he
  | cons e rest ih =>
    intro p h i e' he'
    unfold findIdxFromAux at h
    by_cases hf : f e
    · rw [if_pos hf] at h
      exact absurd h (by simp)
    · rw [if_neg hf] at h
      cases i with
      | zero =>
        simp at he'
        subst he'
        simpa using hf
      | succ i' =>
        simp at he'
        exact ih h i' e' he'

theorem drop_getElem? {l : List Entry} {p i : Nat} : (l.drop p)[i]? = l[p + i]? := by
  rw [List.getElem?_drop]

theorem findIdxFrom_some_bounds {f : Entry → Bool} {l : List Entry} {p j : Nat}
    (h : findIdxFrom f l p = some j) : p ≤ j ∧ j < l.length := by
  obtain ⟨h1, h2, -, -⟩ := findIdxFromAux_some h
  rw [List.length_drop] at h2
  exact ⟨h1, by omega⟩

theorem findIdxFrom_some_found {f : Entry → Bool} {l : List Entry} {p j : Nat}
    (h : findIdxFrom f l p = some j) : ∃ e, l[j]? = some e ∧ f e = true := by
  obtain ⟨h1, h2, ⟨e, he, hfe⟩, -⟩ := findIdxFromAux_some h
  refine ⟨e, ?_, hfe⟩
  rw [drop_getElem?] at he
  rwa [show p + (j - p) = j by omega] at he

theorem findIdxFrom_some_min {f : Entry → Bool} {l : List Entry} {p j : Nat}
    (h : findIdxFrom f l p = some j) :
    ∀ i, p ≤ i → i < j → ∀ e', l[i]? = some e' → f e' = false := by
  obtain ⟨h1, h2, -, h4⟩ := findIdxFromAux_some h
  intro i hpi hij e' he'
  refine h4 (i - p) (by omega) e' ?_
  rw [drop_getElem?]
  rwa [show p + (i - p) = i by omega]

theorem findIdxFrom_none {f : Entry → Bool} {l : List Entry} {p : Nat}
    (h : findIdxFrom f l p = none) :
    ∀ i, p ≤ i → ∀ e, l[i]? = some e → f e = false := by
  intro i hpi e he
  refine findIdxFromAux_none h (i - p) e ?_
  rw [drop_getElem?]
  rwa [show p + (i - p) = i by omega]

end MemCursor
namespace MemCursor

/-- `NextType` selects which `Next` flavour `getNextOnDb` uses
(`Normal`/`Dup`/`NoDup`); Go's `default: invalid next type` branch is
unreachable for this closed enum. -/
inductive NextType where
  | Normal
  | Dup
  | NoDup
deriving DecidableEq

/-- One base-cursor advance of the given kind (the `switch t` of
`getNextOnDb`). -/
def SubCursor.step (t : NextType) (c : SubCursor) : SubCursor × Option Bytes × Option Bytes :=
  match t with
  | .Normal => c.next
  | .Dup => c.nextDup
  | .NoDup => c.nextNoDup

theorem read_some {c : SubCursor} {p : Nat} {e : Entry} (h : c.entries[p]? = some e) :
    c.read p = (some e.1, some e.2) := by
  simp [SubCursor.read, h]

theorem read_none {c : SubCursor} {p : Nat} (h : c.entries[p]? = none) :
    c.read p = (none, none) := by
  simp [SubCursor.read, h]

theorem step_some_bounds {t : NextType} {c c' : SubCursor} {k : Bytes} {v : Option Bytes}
    (h : SubCursor.step t c = (c', some k, v)) :
    c'.entries = c.entries ∧ c.pos < c'.pos ∧ c'.pos < c.entries.length := by
  cases t with
  | Normal =>
    rw [show SubCursor.step .Normal c =
      ({ c with pos := c.pos + 1 }, c.read (c.pos + 1)) from rfl] at h
    rcases hg : c.entries[c.pos + 1]? with _ | e
    · rw [read_none hg] at h
      simp at h
    · rw [read_some hg] at h
      simp only [Prod.mk.injEq] at h
      obtain ⟨hc, -, -⟩ := h
      subst hc
      refine ⟨rfl, ?_, ?_⟩
      · show c.pos < c.pos + 1
        omega
      · show c.pos + 1 < c.entries.length
        exact get?_some_lt hg
  | Dup =>
    rw [show SubCursor.step .Dup c = c.nextDup from rfl] at h
    unfold SubCursor.nextDup at h
    split at h
    · rename_i e e' heq heq'
      by_cases he : e'.1 = e.1
      · rw [if_pos he] at h
        simp only [Prod.mk.injEq] at h
        obtain ⟨hc, -, -⟩ := h
        subst hc
        refine ⟨rfl, ?_, ?_⟩
        · show c.pos < c.pos + 1
          omega
        · show c.pos + 1 < c.entries.length
          exact get?_some_lt heq'
      · rw [if_neg he] at h
        simp at h
    · simp at h
  | NoDup =>
    rw [show SubCursor.step .NoDup c = c.nextNoDup from rfl] at h
    unfold SubCursor.nextNoDup at h
    split at h
    · simp at h
    · rename_i e heq
      split at h
      · rename_i j hj
        have hb := findIdxFrom_some_bounds hj
        rcases hgj : c.entries[j]? with _ | e'
        · rw [read_none hgj] at h
          simp at h
        · rw [read_some hgj] at h
          simp only [Prod.mk.injEq] at h
          obtain ⟨hc, -, -⟩ := h
          subst hc
          refine ⟨rfl, ?_, ?_⟩
          · show c.pos < j
            omega
          · show j < c.entries.length
            omega
      · simp at h

/-- `convertAutoDupsort`: the effective (logical) key of a base entry under
the auto-dupsort encoding.  `value.take n` models the Go slice `value[:n]`;
`convertAutoDupsortChecked` below makes the slice bound explicit. -/
def convertAutoDupsort (env : Env) (key value : Bytes) : Bytes :=
  match env.cfg with
  | none => key
  | some config =>
    if config.autoDupSortKeysConversion = false then key
    else if key.length ≠ config.dupToLen then key
    else key ++ value.take (config.dupFromLen - config.dupToLen)

/-- `convertAutoDupsort` with the Go slice bound made explicit: the width
`config.DupFromLen - config.DupToLen` of `value[:...]` is a signed Go `int`
and must be between `0` and `len(value)`; outside those bounds the slice
expression does not denote a prefix of the value (it panics, or reads past
the value's length into its backing array), modelled as `none`. -/
def convertAutoDupsortChecked (env : Env) (key value : Bytes) : Option Bytes :=
  match env.cfg with
  | none => some key
  | some config =>
    if config.autoDupSortKeysConversion = false then some key
    else if key.length ≠ config.dupToLen then some key
    else if config.dupToLen ≤ config.dupFromLen ∧
        config.dupFromLen - config.dupToLen ≤ value.length then
      some (key ++ value.take (config.dupFromLen - config.dupToLen))
    else none

theorem convertAutoDupsortChecked_some {env : Env} {key value r : Bytes}
    (h : convertAutoDupsortChecked env key value = some r) :
    convertAutoDupsort env key value = r := by
  rcases hc : env.cfg with _ | config
  · simp only [convertAutoDupsort, convertAutoDupsortChecked, hc] at h ⊢
    exact Option.some.inj h
  · simp only [convertAutoDupsort, convertAutoDupsortChecked, hc] at h ⊢
    by_cases h1 : config.autoDupSortKeysConversion = false
    · rw [if_pos h1] at h ⊢
      exact Option.some.inj h
    · rw [if_neg h1] at h ⊢
      by_cases h2 : key.length ≠ config.dupToLen
      · rw [if_pos h2] at h ⊢
        exact Option.some.inj h
      · rw [if_neg h2] at h ⊢
        by_cases h3 : config.dupToLen ≤ config.dupFromLen ∧
            config.dupFromLen - config.dupToLen ≤ value.length
        · rw [if_pos h3] at h
          exact Option.some.inj h
        · rw [if_neg h3] at h
          exact absurd h (by simp)

/-- The tombstone-skip loop of `getNextOnDb`, with an explicit iteration
bound.  The Go loop advances the base position on every iteration, so
`entries.length + 1` iterations always suffice; `getNextOnDbAux_stable`
below shows any sufficient bound gives the same result. -/
def getNextOnDbAux (env : Env) (t : NextType) :
    Nat → SubCursor → SubCursor × Option Bytes × Option Bytes
  | 0, c => SubCursor.step t c
  | fuel + 1, c =>
    match SubCursor.step t c with
    | (c', some key, some value) =>
      if env.entryDeleted (convertAutoDupsort env key value) then
        getNextOnDbAux env t fuel c'
      else (c', some key, some value)
    | r => r

/-- `getNextOnDb`: step the base cursor by `t`, then keep stepping while the
current entry's effective key is tombstoned. -/
def getNextOnDb (env : Env) (t : NextType) (c : SubCursor) :
    SubCursor × Option Bytes × Option Bytes :=
  getNextOnDbAux env t (c.entries.length + 1) c

theorem getNextOnDbAux_stable (env : Env) (t : NextType) :
    ∀ (fuel fuel' : Nat) (c : SubCursor),
      c.entries.length - c.pos < fuel → c.entries.length - c.pos < fuel' →
      getNextOnDbAux env t fuel c = getNextOnDbAux env t fuel' c := by
  intro fuel
  induction fuel with
  | zero => intro fuel' c h h'; omega
  | succ n ih =>
    intro fuel' c h h'
    cases fuel' with
    | zero => omega
    | succ n' =>
      show getNextOnDbAux env t (n + 1) c = getNextOnDbAux env t (n' + 1) c
      unfold getNextOnDbAux
      rcases hs : SubCursor.step t c with ⟨c', k, v⟩
      rcases k with _ | key
      · rfl
      · rcases v with _ | value
        · rfl
        · dsimp only
          obtain ⟨he, h1, h2⟩ := step_some_bounds hs
          by_cases hd : env.entryDeleted (convertAutoDupsort env key value)
          · rw [if_pos hd, if_pos hd]
            exact ih n' c' (by rw [he]; omega) (by rw [he]; omega)
          · rw [if_neg hd, if_neg hd]

end MemCursor
namespace MemCursor

/-- `skipIntersection`: when both sides' candidates share a key, advance the
base cursor past the collision according to the dup-sort rules; otherwise
return the base candidate unchanged. -/
def skipIntersection (env : Env) (memKey memValue dbKey dbValue : Option Bytes)
    (t : NextType) (c : SubCursor) : SubCursor × Option Bytes × Option Bytes :=
  let dupsortOffset := env.dupsortOffset
  if goEqual memKey dbKey then
    if env.dupSort = false then
      getNextOnDb env t c
    else if goEqual memValue dbValue then
      getNextOnDb env t c
    else if dupsortOffset ≠ 0 ∧ dupsortOffset ≤ (goBytes memValue).length ∧
        dupsortOffset ≤ (goBytes dbValue).length ∧
        (goBytes memValue).take dupsortOffset = (goBytes dbValue).take dupsortOffset then
      getNextOnDb env t c
    else (c, dbKey, dbValue)
  else (c, dbKey, dbValue)

/-- The winner flag computed by `goForward`:
`dbValue != nil && (memValue == nil || bytes.Compare(memValue, dbValue) > 0)`
on equal keys, and likewise on keys otherwise. -/
def prevFromDbCalc (memKey memValue dbKey dbValue : Option Bytes) : Bool :=
  if goEqual memKey dbKey then
    dbValue.isSome && (memValue.isNone || goCompare memValue dbValue == .gt)
  else
    dbValue.isSome && (memKey.isNone || goCompare memKey dbKey == .gt)

/-- `cursorEntry`: the held lookahead of one side (zero value = both nil). -/
structure CursorEntry where
  key : Option Bytes
  value : Option Bytes
deriving DecidableEq

/-- Go `cursorEntry{}`. -/
def CursorEntry.empty : CursorEntry := ⟨none, none⟩

/-- The state of a `memoryMutationCursor`: base cursor, overlay cursor, the
side of the previous yield, and the two held lookahead entries. -/
structure MState where
  cursor : SubCursor
  memCursor : SubCursor
  isPrevFromDb : Bool
  currentDbEntry : CursorEntry
  currentMemEntry : CursorEntry

/-- `goForward`: the merge step.  Skips the intersection, stores both
candidates, decides the winner and returns its entry. -/
def goForward (env : Env) (st : MState) (memKey memValue dbKey dbValue : Option Bytes)
    (t : NextType) : MState × Option Bytes × Option Bytes :=
  if memValue = none ∧ dbValue = none then (st, none, none)
  else
    let r := skipIntersection env memKey memValue dbKey dbValue t st.cursor
    let dbKey' := r.2.1
    let dbValue' := r.2.2
    let prev := prevFromDbCalc memKey memValue dbKey' dbValue'
    let dbE := if dbValue' = none then CursorEntry.empty else ⟨dbKey', dbValue'⟩
    let memE := if memValue = none then CursorEntry.empty else ⟨memKey, memValue⟩
    let st' : MState := { st with
      cursor := r.1,
      isPrevFromDb := prev,
      currentDbEntry := dbE,
      currentMemEntry := memE }
    if prev then (st', dbKey', dbValue') else (st', memKey, memValue)

/-- `First`: move to the first position of the merged view.  Note that the
tombstone check on the initial base candidate uses the raw `dbKey`, not the
effective key. -/
def MFirst (env : Env) (st : MState) : MState × Option Bytes × Option Bytes :=
  let m := st.memCursor.first
  let st1 := { st with memCursor := m.1 }
  if env.tableCleared then
    ({ st1 with isPrevFromDb := false }, m.2.1, m.2.2)
  else
    let d := st1.cursor.first
    let st2 := { st1 with cursor := d.1 }
    let r :=
      if d.2.1 ≠ none ∧ env.entryDeleted (goBytes d.2.1) then
        getNextOnDb env .Normal st2.cursor
      else (st2.cursor, d.2.1, d.2.2)
    goForward env { st2 with cursor := r.1 } m.2.1 m.2.2 r.2.1 r.2.2 .Normal

/-- `Next`: advance the side that produced the previous yield and merge
against the other side's held lookahead. -/
def MNext (env : Env) (st : MState) : MState × Option Bytes × Option Bytes :=
  if st.isPrevFromDb then
    let r := getNextOnDb env .Normal st.cursor
    goForward env { st with cursor := r.1 } st.currentMemEntry.key
      st.currentMemEntry.value r.2.1 r.2.2 .Normal
  else
    let m := st.memCursor.next
    goForward env { st with memCursor := m.1 } m.2.1 m.2.2
      st.currentDbEntry.key st.currentDbEntry.value .Normal

/-- `NextDup`: like `Next` with the `Dup` step kind. -/
def MNextDup (env : Env) (st : MState) : MState × Option Bytes × Option Bytes :=
  if st.isPrevFromDb then
    let r := getNextOnDb env .Dup st.cursor
    goForward env { st with cursor := r.1 } st.currentMemEntry.key
      st.currentMemEntry.value r.2.1 r.2.2 .Dup
  else
    let m := st.memCursor.nextDup
    goForward env { st with memCursor := m.1 } m.2.1 m.2.2
      st.currentDbEntry.key st.currentDbEntry.value .Dup

/-- `NextNoDup`: like `Next` with the `NoDup` step kind. -/
def MNextNoDup (env : Env) (st : MState) : MState × Option Bytes × Option Bytes :=
  if st.isPrevFromDb then
    let r := getNextOnDb env .NoDup st.cursor
    goForward env { st with cursor := r.1 } st.currentMemEntry.key
      st.currentMemEntry.value r.2.1 r.2.2 .NoDup
  else
    let m := st.memCursor.nextNoDup
    goForward env { st with memCursor := m.1 } m.2.1 m.2.2
      st.currentDbEntry.key st.currentDbEntry.value .NoDup

/-- `Seek`: position at the first merged entry with key ≥ `seek`. -/
def MSeek (env : Env) (st : MState) (seek : Bytes) : MState × Option Bytes × Option Bytes :=
  if env.tableCleared then
    let m := st.memCursor.seek seek
    ({ st with memCursor := m.1 }, m.2)
  else
    let d := st.cursor.seek seek
    let st1 := { st with cursor := d.1 }
    let r :=
      if d.2.1 ≠ none ∧ env.entryDeleted (goBytes d.2.1) then
        getNextOnDb env .Normal st1.cursor
      else (st1.cursor, d.2.1, d.2.2)
    let st2 := { st1 with cursor := r.1 }
    let m := st2.memCursor.seek seek
    goForward env { st2 with memCursor := m.1 } m.2.1 m.2.2 r.2.1 r.2.2 .Normal

/-- `SeekExact`: exact-match lookup preferring the overlay. -/
def MSeekExact (env : Env) (st : MState) (seek : Bytes) :
    MState × Option Bytes × Option Bytes :=
  let m := st.memCursor.seekExact seek
  let st1 := { st with memCursor := m.1 }
  if m.2.1 ≠ none then
    let d := st1.cursor.seek seek
    let st2 := { st1 with
      cursor := d.1,
      currentMemEntry := ⟨m.2.1, m.2.2⟩,
      currentDbEntry := ⟨d.2.1, d.2.2⟩,
      isPrevFromDb := false }
    (st2, m.2.1, m.2.2)
  else
    let d := st1.cursor.seekExact seek
    let st2 := { st1 with cursor := d.1 }
    if d.2.1 ≠ none ∧ env.tableCleared = false ∧ env.entryDeleted seek = false then
      let m2 := st2.memCursor.seek seek
      let st3 := { st2 with
        memCursor := m2.1,
        currentDbEntry := ⟨d.2.1, d.2.2⟩,
        currentMemEntry := ⟨m2.2.1, m2.2.2⟩,
        isPrevFromDb := true }
      (st3, d.2.1, d.2.2)
    else (st2, none, none)

/-- `SeekBothRange`: dup-sort range lookup, returning the value only.  A nil
`value` degrades to `SeekExact`. -/
def MSeekBothRange (env : Env) (st : MState) (key : Bytes) (value : Option Bytes) :
    MState × Option Bytes :=
  match value with
  | none =>
    let r := MSeekExact env st key
    (r.1, r.2.2)
  | some v =>
    let d := st.cursor.seekBothRange key v
    let st1 := { st with cursor := d.1 }
    let r :=
      if d.2 ≠ none ∧ env.entryDeleted (convertAutoDupsort env key (goBytes d.2)) then
        let g := getNextOnDb env .Dup st1.cursor
        (g.1, g.2.2)
      else (st1.cursor, d.2)
    let st2 := { st1 with cursor := r.1 }
    let m := st2.memCursor.seekBothRange key v
    let st3 := { st2 with memCursor := m.1 }
    let gf := goForward env st3 (some key) m.2 (some key) r.2 .Normal
    (gf.1, gf.2.2)

/-- `Current`: report the entry of the side that produced the last yield. -/
def MCurrent (st : MState) : Option Bytes × Option Bytes :=
  if st.isPrevFromDb then st.cursor.current else st.memCursor.current

/-- The outcome of a Go call that may panic instead of returning. -/
inductive GoResult (α : Type) where
  | ok (val : α)
  | panicked (msg : String)
deriving DecidableEq

/-- `Prev` panics: `panic("Prev is not implemented!")`. -/
def MPrev (_st : MState) : GoResult (Option Bytes × Option Bytes) :=
  .panicked "Prev is not implemented!"

/-- `DeleteCurrent` panics. -/
def MDeleteCurrent (_st : MState) : GoResult Unit :=
  .panicked "DeleteCurrent Not implemented"

/-- `DeleteExact` panics. -/
def MDeleteExact (_st : MState) (_k1 _k2 : Bytes) : GoResult Unit :=
  .panicked "DeleteExact Not implemented"

/-- `PutNoDupData` panics (with a copy-pasted message in the source). -/
def MPutNoDupData (_st : MState) (_key _value : Bytes) : GoResult Unit :=
  .panicked "DeleteCurrentDuplicates Not implemented"

/-- `Count` panics. -/
def MCount (_st : MState) : GoResult Nat :=
  .panicked "Not implemented"

/-- `FirstDup` panics. -/
def MFirstDup (_st : MState) : GoResult (Option Bytes) :=
  .panicked "Not implemented"

/-- `LastDup` panics. -/
def MLastDup (_st : MState) : GoResult (Option Bytes) :=
  .panicked "Not implemented"

/-- `CountDuplicates` panics. -/
def MCountDuplicates (_st : MState) : GoResult Nat :=
  .panicked "Not implemented"

/-- `SeekBothExact` panics. -/
def MSeekBothExact (_st : MState) (_key _value : Bytes) :
    GoResult (Option Bytes × Option Bytes) :=
  .panicked "SeekBothExact Not implemented"

/-- Repeated `Next` yields: the collected entries and whether the scan
reached the null result within `fuel` steps. -/
def scanFrom (env : Env) : Nat → MState → List Entry × Bool
  | 0, _ => ([], false)
  | fuel + 1, st =>
    let r := MNext env st
    match r.2.1, r.2.2 with
    | some k, some v =>
      let rest := scanFrom env fuel r.1
      ((k, v) :: rest.1, rest.2)
    | _, _ => ([], true)

/-- A full scan: `First`, then `Next` until null (or until `fuel` runs out). -/
def scan (env : Env) (fuel : Nat) (st : MState) : List Entry × Bool :=
  let r := MFirst env st
  match r.2.1, r.2.2 with
  | some k, some v =>
    let rest := scanFrom env fuel r.1
    ((k, v) :: rest.1, rest.2)
  | _, _ => ([], true)

/-- A freshly created cursor over the given base and overlay stores
(Go zero values for the flag and the held entries). -/
def initState (db mem : List Entry) : MState :=
  { cursor := ⟨db, 0⟩, memCursor := ⟨mem, 0⟩, isPrevFromDb := false,
    currentDbEntry := .empty, currentMemEntry := .empty }

end MemCursor
namespace MemCursor

/-- Whether the table registry marks this table for auto-dupsort key
conversion. -/
def Env.autoDup (env : Env) : Bool :=
  match env.cfg with
  | some c => c.autoDupSortKeysConversion
  | none => false

theorem seekExact_some_key {c : SubCursor} {k : Bytes} {k' : Bytes} {v' : Option Bytes}
    (h : (c.seekExact k).2 = (some k', v')) :
    k' = k ∧ ∃ v, v' = some v ∧ (k, v) ∈ c.entries := by
  unfold SubCursor.seekExact at h
  rcases hj : findIdxFrom (fun e => decide (e.1 = k)) c.entries 0 with _ | j
  · rw [hj] at h
    simp at h
  · rw [hj] at h
    obtain ⟨e, he, hfe⟩ := findIdxFrom_some_found hj
    dsimp only at h
    rw [read_some he] at h
    simp only [Prod.mk.injEq] at h
    obtain ⟨hk, hv⟩ := h
    have hek : e.1 = k := by simpa using hfe
    obtain rfl : e.1 = k' := Option.some.inj hk
    refine ⟨hek, e.2, hv.symm, ?_⟩
    have : e ∈ c.entries := List.getElem?_mem he
    rwa [show e = (e.1, e.2) from rfl, hek] at this

theorem seekExact_none {c : SubCursor} {k : Bytes}
    (h : (c.seekExact k).2.1 = none) : ¬∃ v, (k, v) ∈ c.entries := by
  rintro ⟨v, hv⟩
  unfold SubCursor.seekExact at h
  rcases hj : findIdxFrom (fun e => decide (e.1 = k)) c.entries 0 with _ | j
  · obtain ⟨n, hn⟩ := List.mem_iff_getElem?.mp hv
    have := findIdxFrom_none hj n (Nat.zero_le _) (k, v) hn
    simp at this
  · rw [hj] at h
    obtain ⟨e, he, -⟩ := findIdxFrom_some_found hj
    dsimp only at h
    rw [read_some he] at h
    simp at h

theorem seekExact_contains {c : SubCursor} {k : Bytes} {v : Bytes}
    (h : (k, v) ∈ c.entries) : (c.seekExact k).2.1 ≠ none := by
  intro hn
  exact seekExact_none hn ⟨v, h⟩

theorem seek_key_ge {c : SubCursor} {k : Bytes} {k' : Bytes} {v' : Option Bytes}
    (h : (c.seek k).2 = (some k', v')) : bytesLe k k' := by
  unfold SubCursor.seek at h
  rcases hj : findIdxFrom (fun e => decide (bytesLe k e.1)) c.entries 0 with _ | j
  · rw [hj] at h
    simp at h
  · rw [hj] at h
    obtain ⟨e, he, hfe⟩ := findIdxFrom_some_found hj
    dsimp only at h
    rw [read_some he] at h
    simp only [Prod.mk.injEq] at h
    obtain rfl : e.1 = k' := Option.some.inj h.1
    simpa using hfe

/-- The result of `Seek` depends only on the cursor's entries, not its
current position. -/
theorem seek_result_pos_invariant (l : List Entry) (p p' : Nat) (k : Bytes) :
    (SubCursor.seek ⟨l, p⟩ k).2 = (SubCursor.seek ⟨l, p'⟩ k).2 := by
  unfold SubCursor.seek
  rcases hj : findIdxFrom (fun e => decide (bytesLe k e.1)) l 0 with _ | j <;>
    simp [hj, SubCursor.read]

end MemCursor
namespace MemCursor

/-- Spec §4.4 winner rule, written independently of the code: the base side
wins iff `db_v` is non-null and (`mem_v`/`mem_k` is null or strictly greater
on the relevant component). -/
def baseWinsSpec (memKey memValue dbKey dbValue : Option Bytes) : Prop :=
  if goBytes memKey = goBytes dbKey then
    dbValue ≠ none ∧ (memValue = none ∨ bytesLt (goBytes dbValue) (goBytes memValue))
  else
    dbValue ≠ none ∧ (memKey = none ∨ bytesLt (goBytes dbKey) (goBytes memKey))

theorem ordering_beq_gt (o : Ordering) : (o == Ordering.gt) = true ↔ o = Ordering.gt := by
  cases o <;> simp <;> decide

theorem prevFromDbCalc_iff (memKey memValue dbKey dbValue : Option Bytes) :
    prevFromDbCalc memKey memValue dbKey dbValue = true ↔
      baseWinsSpec memKey memValue dbKey dbValue := by
  unfold prevFromDbCalc baseWinsSpec
  by_cases hk : goBytes memKey = goBytes dbKey
  · rw [if_pos (by simpa [goEqual] using hk), if_pos hk]
    simp [Option.isSome_iff_ne_none, Option.isNone_iff_eq_none, goCompare,
      bytesLt_iff_gt_swap, bytesLt, ordering_beq_gt]
  · rw [if_neg (by simpa [goEqual] using hk), if_neg hk]
    simp [Option.isSome_iff_ne_none, Option.isNone_iff_eq_none, goCompare,
      bytesLt_iff_gt_swap, bytesLt, ordering_beq_gt]

end MemCursor
namespace MemCursor

/-- C4: in the merge step, after intersection-skipping, the base side wins
iff `db_v` is non-null and (`mem_v` null or `mem_v > db_v`) on equal keys,
resp. (`mem_k` null or `mem_k > db_k`) on unequal keys; the winner's entry
is returned, and a doubly-null candidate pair yields null. -/
theorem goForward_winner_rule (env : Env) (st : MState)
    (memKey memValue dbKey dbValue : Option Bytes) (t : NextType) :
    (memValue = none ∧ dbValue = none →
      goForward env st memKey memValue dbKey dbValue t = (st, none, none)) ∧
    (¬(memValue = none ∧ dbValue = none) →
      ((goForward env st memKey memValue dbKey dbValue t).1.isPrevFromDb = true ↔
        baseWinsSpec memKey memValue
          (skipIntersection env memKey memValue dbKey dbValue t st.cursor).2.1
          (skipIntersection env memKey memValue dbKey dbValue t st.cursor).2.2) ∧
      ((goForward env st memKey memValue dbKey dbValue t).1.isPrevFromDb = true →
        (goForward env st memKey memValue dbKey dbValue t).2 =
          ((skipIntersection env memKey memValue dbKey dbValue t st.cursor).2.1,
           (skipIntersection env memKey memValue dbKey dbValue t st.cursor).2.2)) ∧
      ((goForward env st memKey memValue dbKey dbValue t).1.isPrevFromDb = false →
        (goForward env st memKey memValue dbKey dbValue t).2 = (memKey, memValue))) := by
  constructor
  · intro h
    unfold goForward
    rw [if_pos h]
  · intro h
    unfold goForward
    rw [if_neg h]
    dsimp only
    by_cases hp : prevFromDbCalc memKey memValue
        (skipIntersection env memKey memValue dbKey dbValue t st.cursor).2.1
        (skipIntersection env memKey memValue dbKey dbValue t st.cursor).2.2 = true
    · rw [if_pos hp]
      refine ⟨?_, ?_, ?_⟩
      · dsimp only
        rw [hp]
        simp only [true_iff]
        exact (prevFromDbCalc_iff _ _ _ _).mp hp
      · intro _
        rfl
      · intro hfalse
        dsimp only at hfalse
        rw [hp] at hfalse
        exact absurd hfalse (by simp)
    · rw [if_neg hp]
      have hp' : prevFromDbCalc memKey memValue
          (skipIntersection env memKey memValue dbKey dbValue t st.cursor).2.1
          (skipIntersection env memKey memValue dbKey dbValue t st.cursor).2.2 = false :=
        Bool.not_eq_true _ ▸ (by simpa using hp)
      refine ⟨?_, ?_, ?_⟩
      · dsimp only
        rw [hp']
        simp only [Bool.false_eq_true, false_iff]
        intro hspec
        exact hp ((prevFromDbCalc_iff _ _ _ _).mpr hspec)
      · intro htrue
        dsimp only at htrue
        rw [hp'] at htrue
        exact absurd htrue (by simp)
      · intro _
        rfl

end MemCursor
namespace MemCursor

/-- A plain (non-dup-sort, unconfigured) table with nothing cleared or
tombstoned. -/
def envPlain : Env := { cfg := none, tableCleared := false, entryDeleted := fun _ => false }

/-- An empty fresh cursor. -/
def stPlain : MState := initState [] []

/-- Witness for C4 at concrete inputs: both-null yields null, and a
mem-only candidate pair is returned from the overlay side. -/
theorem goForward_winner_rule_witness :
    goForward envPlain stPlain none none none none .Normal = (stPlain, none, none) ∧
    (goForward envPlain stPlain (some [1]) (some [2]) none none .Normal).2 =
      (some [1], some [2]) := by
  refine ⟨(goForward_winner_rule envPlain stPlain none none none none .Normal).1 ⟨rfl, rfl⟩, ?_⟩
  have h := (goForward_winner_rule envPlain stPlain (some [1]) (some [2]) none none .Normal).2
    (by simp)
  exact h.2.2 (by decide)

/-- Spec §4.3 intersection-skip condition, written independently of the
code: equal keys, and (non-dup-sort table; or dup-sort with byte-equal
values; or dup-sort auto-dupsort with colliding value prefixes of length
`dup_offset`). -/
def skipCondSpec (env : Env) (memKey memValue dbKey dbValue : Option Bytes) : Prop :=
  goBytes memKey = goBytes dbKey ∧
    (env.dupSort = false ∨
     (env.dupSort = true ∧ goBytes memValue = goBytes dbValue) ∨
     (env.dupSort = true ∧ env.autoDup = true ∧
       env.dupsortOffset ≤ (goBytes memValue).length ∧
       env.dupsortOffset ≤ (goBytes dbValue).length ∧
       (goBytes memValue).take env.dupsortOffset =
         (goBytes dbValue).take env.dupsortOffset))

theorem dupsortOffset_cfg_some {env : Env} {c : TableCfgItem} (hc : env.cfg = some c) :
    env.dupsortOffset =
      if c.autoDupSortKeysConversion = true then c.dupFromLen - c.dupToLen else 0 := by
  unfold Env.dupsortOffset
  rw [hc]

theorem dupsortOffset_cfg_none {env : Env} (hc : env.cfg = none) :
    env.dupsortOffset = 0 := by
  unfold Env.dupsortOffset
  rw [hc]

theorem autoDup_cfg_some {env : Env} {c : TableCfgItem} (hc : env.cfg = some c) :
    env.autoDup = c.autoDupSortKeysConversion := by
  unfold Env.autoDup
  rw [hc]

theorem autoDup_cfg_none {env : Env} (hc : env.cfg = none) : env.autoDup = false := by
  unfold Env.autoDup
  rw [hc]

theorem autoDup_dupsortOffset_pos {env : Env} (hwf : Env.WF env)
    (ha : env.autoDup = true) : env.dupsortOffset ≠ 0 := by
  rcases hc : env.cfg with _ | c
  · rw [autoDup_cfg_none hc] at ha
    exact absurd ha (by simp)
  · rw [autoDup_cfg_some hc] at ha
    have := hwf c hc ha
    rw [dupsortOffset_cfg_some hc, if_pos ha]
    omega

theorem not_autoDup_dupsortOffset_zero {env : Env} (ha : env.autoDup = false) :
    env.dupsortOffset = 0 := by
  rcases hc : env.cfg with _ | c
  · exact dupsortOffset_cfg_none hc
  · rw [autoDup_cfg_some hc] at ha
    rw [dupsortOffset_cfg_some hc, ha]
    simp

/-- C5: `skipIntersection` advances the base cursor (tombstone-skipping,
with the given step kind) exactly under the spec §4.3 condition; in every
other case the base candidate is returned unchanged. -/
theorem skipIntersection_rule (env : Env) (hwf : Env.WF env)
    (memKey memValue dbKey dbValue : Option Bytes) (t : NextType) (c : SubCursor) :
    (skipCondSpec env memKey memValue dbKey dbValue →
      skipIntersection env memKey memValue dbKey dbValue t c = getNextOnDb env t c) ∧
    (¬skipCondSpec env memKey memValue dbKey dbValue →
      skipIntersection env memKey memValue dbKey dbValue t c = (c, dbKey, dbValue)) := by
  unfold skipIntersection skipCondSpec
  by_cases hk : goBytes memKey = goBytes dbKey
  · rw [if_pos (by simpa [goEqual] using hk)]
    by_cases hd : env.dupSort = false
    · rw [if_pos hd]
      exact ⟨fun _ => rfl, fun hn => absurd ⟨hk, Or.inl hd⟩ hn⟩
    · rw [if_neg hd]
      have hd' : env.dupSort = true := by simpa using hd
      by_cases hv : goBytes memValue = goBytes dbValue
      · rw [if_pos (by simpa [goEqual] using hv)]
        exact ⟨fun _ => rfl, fun hn => absurd ⟨hk, Or.inr (Or.inl ⟨hd', hv⟩)⟩ hn⟩
      · rw [if_neg (by simpa [goEqual] using hv)]
        by_cases h3 : env.dupsortOffset ≠ 0 ∧
            env.dupsortOffset ≤ (goBytes memValue).length ∧
            env.dupsortOffset ≤ (goBytes dbValue).length ∧
            (goBytes memValue).take env.dupsortOffset =
              (goBytes dbValue).take env.dupsortOffset
        · rw [if_pos h3]
          obtain ⟨hoff, hl1, hl2, hpre⟩ := h3
          have ha : env.autoDup = true := by
            by_contra hna
            exact hoff (not_autoDup_dupsortOffset_zero (by simpa using hna))
          exact ⟨fun _ => rfl,
            fun hn => absurd ⟨hk, Or.inr (Or.inr ⟨hd', ha, hl1, hl2, hpre⟩)⟩ hn⟩
        · rw [if_neg h3]
          refine ⟨fun hs => ?_, fun _ => rfl⟩
          rcases hs.2 with h | h | h
          · exact absurd h (by simp [hd'])
          · exact absurd h.2 hv
          · obtain ⟨-, ha, hl1, hl2, hpre⟩ := h
            exact absurd ⟨autoDup_dupsortOffset_pos hwf ha, hl1, hl2, hpre⟩ h3
  · rw [if_neg (by simpa [goEqual] using hk)]
    exact ⟨fun hs => absurd hs.1 hk, fun _ => rfl⟩

end MemCursor
namespace MemCursor

/-- Witness for C5: a colliding candidate pair on a non-dup-sort table
advances the base cursor. -/
theorem skipIntersection_rule_witness :
    skipIntersection envPlain (some [1]) (some [2]) (some [1]) (some [3]) .Normal ⟨[], 0⟩ =
      getNextOnDb envPlain .Normal ⟨[], 0⟩ := by
  have hwf : Env.WF envPlain := by
    intro c hc
    exact absurd hc (by simp [envPlain])
  exact (skipIntersection_rule envPlain hwf (some [1]) (some [2]) (some [1]) (some [3])
    .Normal ⟨[], 0⟩).1 ⟨rfl, Or.inl rfl⟩

/-- An auto-dupsort dup-sorted table splitting 3-byte logical keys into a
1-byte physical key plus a 2-byte value prefix. -/
def cfgAuto31 : TableCfgItem :=
  { flagsDupSort := true, autoDupSortKeysConversion := true, dupFromLen := 3, dupToLen := 1 }

/-- `cfgAuto31` with no tombstones and nothing cleared. -/
def envAuto31 : Env :=
  { cfg := some cfgAuto31, tableCleared := false, entryDeleted := fun _ => false }

/-- C7 counterexample: on an auto-dupsort table with `dup_offset = 2`, a
1-byte key with a 1-byte value makes the slice `value[:2]` violate its
bound instead of producing `key ++ value[0..2]`. -/
theorem convertAutoDupsort_short_value_counterexample :
    convertAutoDupsortChecked envAuto31 [1] [5] = none ∧
    convertAutoDupsortChecked envAuto31 [1] [5] ≠ some ([1] ++ ([5] : Bytes).take 2) :=
  ⟨by decide, by decide⟩

/-- C7 (amended): the normalization returns the key unchanged on
non-auto-dupsort tables (including absent configs) and on keys whose length
differs from `dup_to_len`; otherwise, provided the slice width
`dup_from_len - dup_to_len` is within the value's length, it returns the key
with the first `dup_from_len - dup_to_len` bytes of the value appended. -/
theorem convertAutoDupsort_characterization (env : Env) (key value : Bytes) :
    (env.autoDup = false → convertAutoDupsortChecked env key value = some key) ∧
    (∀ c, env.cfg = some c → c.autoDupSortKeysConversion = true →
      key.length ≠ c.dupToLen → convertAutoDupsortChecked env key value = some key) ∧
    (∀ c, env.cfg = some c → c.autoDupSortKeysConversion = true →
      key.length = c.dupToLen → c.dupToLen ≤ c.dupFromLen →
      c.dupFromLen - c.dupToLen ≤ value.length →
      convertAutoDupsortChecked env key value =
        some (key ++ value.take (c.dupFromLen - c.dupToLen))) := by
  refine ⟨?_, ?_, ?_⟩
  · intro ha
    unfold convertAutoDupsortChecked
    rcases hc : env.cfg with _ | c
    · rfl
    · rw [autoDup_cfg_some hc] at ha
      dsimp only
      rw [if_pos ha]
  · intro c hc hauto hlen
    unfold convertAutoDupsortChecked
    rw [hc]
    dsimp only
    rw [if_neg (by simp [hauto]), if_pos hlen]
  · intro c hc hauto hlen hle hval
    unfold convertAutoDupsortChecked
    rw [hc]
    dsimp only
    rw [if_neg (by simp [hauto]), if_neg (by simp [hlen]), if_pos ⟨hle, hval⟩]

/-- Witness for C7 at concrete inputs: the conversion appends the 2-byte
value prefix on `cfgAuto31`, and is the identity on an unconfigured table. -/
theorem convertAutoDupsort_characterization_witness :
    convertAutoDupsortChecked envAuto31 [1] [2, 3, 4, 5] = some [1, 2, 3] ∧
    convertAutoDupsortChecked envPlain [1] [2, 3, 4, 5] = some [1] := by
  constructor
  · exact (convertAutoDupsort_characterization envAuto31 [1] [2, 3, 4, 5]).2.2 cfgAuto31
      rfl rfl rfl (by decide) (by decide)
  · exact (convertAutoDupsort_characterization envPlain [1] [2, 3, 4, 5]).1 rfl

/-- C8: `SeekBothRange(k, nil)` degrades to `SeekExact(k)`, returning its
value component and post-state. -/
theorem seekBothRange_nil_degrades_to_seekExact (env : Env) (st : MState) (key : Bytes) :
    MSeekBothRange env st key none =
      ((MSeekExact env st key).1, (MSeekExact env st key).2.2) := rfl

/-- C9 counterexample: `Prev` does not return an "unsupported" error — it
panics. -/
theorem unsupported_ops_counterexample :
    MPrev (initState [] []) = .panicked "Prev is not implemented!" := rfl

/-- C9 (amended): every unimplemented operation panics with a
"not implemented" message instead of returning a typed error
(`DeleteCurrentDuplicates`, by contrast, has a FIXME-flagged
implementation in the source and fails in neither way). -/
theorem unsupported_ops_panic (st : MState) (k1 k2 key value : Bytes) :
    MPrev st = .panicked "Prev is not implemented!" ∧
    MDeleteCurrent st = .panicked "DeleteCurrent Not implemented" ∧
    MDeleteExact st k1 k2 = .panicked "DeleteExact Not implemented" ∧
    MPutNoDupData st key value = .panicked "DeleteCurrentDuplicates Not implemented" ∧
    MCount st = .panicked "Not implemented" ∧
    MFirstDup st = .panicked "Not implemented" ∧
    MLastDup st = .panicked "Not implemented" ∧
    MCountDuplicates st = .panicked "Not implemented" ∧
    MSeekBothExact st key value = .panicked "SeekBothExact Not implemented" :=
  ⟨rfl, rfl, rfl, rfl, rfl, rfl, rfl, rfl, rfl⟩

end MemCursor
namespace MemCursor

/-- A cleared table with no configuration and no tombstones. -/
def envCleared : Env := { cfg := none, tableCleared := true, entryDeleted := fun _ => false }

/-- A cursor holding a stale base-side lookahead `([1], [9])` from before
the table was cleared, over an overlay containing `([5], [7])`. -/
def stStale : MState :=
  { cursor := ⟨[], 0⟩, memCursor := ⟨[([5], [7])], 0⟩, isPrevFromDb := false,
    currentDbEntry := ⟨some [1], some [9]⟩, currentMemEntry := .empty }

/-- C10: on a cleared table, `First` returns the overlay result and only
sets `prev_from_db := false`, and `Seek` returns the overlay result and sets
nothing — both leave the held entries `last_db`/`last_mem` unchanged.
Consequently a `Next` after such a `First` merges against a stale pre-clear
base candidate: with overlay `{([5],[7])}` and stale `last_db = ([1],[9])`,
the scan yields `([5],[7])` then the stale `([1],[9])`. -/
theorem cleared_first_seek_frame :
    (∀ (env : Env) (st : MState) (k : Bytes), env.tableCleared = true →
      ((MFirst env st).1.currentDbEntry = st.currentDbEntry ∧
       (MFirst env st).1.currentMemEntry = st.currentMemEntry ∧
       (MFirst env st).1.isPrevFromDb = false ∧
       (MFirst env st).2 = st.memCursor.first.2) ∧
      ((MSeek env st k).1.currentDbEntry = st.currentDbEntry ∧
       (MSeek env st k).1.currentMemEntry = st.currentMemEntry ∧
       (MSeek env st k).1.isPrevFromDb = st.isPrevFromDb ∧
       (MSeek env st k).2 = (st.memCursor.seek k).2)) ∧
    (MFirst envCleared stStale).2 = (some [5], some [7]) ∧
    (MNext envCleared (MFirst envCleared stStale).1).2 = (some [1], some [9]) := by
  refine ⟨?_, by decide, by decide⟩
  intro env st k h
  constructor
  · unfold MFirst
    rw [if_pos h]
    exact ⟨rfl, rfl, rfl, rfl⟩
  · unfold MSeek
    rw [if_pos h]
    exact ⟨rfl, rfl, rfl, rfl⟩

/-- Witness for C10 on a concrete cleared state. -/
theorem cleared_first_seek_frame_witness :
    (MFirst envCleared stStale).1.currentDbEntry = stStale.currentDbEntry ∧
    (MSeek envCleared stStale [3]).1.isPrevFromDb = stStale.isPrevFromDb :=
  ⟨((cleared_first_seek_frame.1 envCleared stStale [3] rfl).1).1,
   ((cleared_first_seek_frame.1 envCleared stStale [3] rfl).2).2.2.1⟩

/-- `cfgAuto31` with the effective key `[1,2,3]` tombstoned. -/
def envAutoTomb : Env :=
  { cfg := some cfgAuto31, tableCleared := false,
    entryDeleted := fun k => k == [1, 2, 3] }

/-- C3: `First` checks the tombstone set with the raw first base key `[1]`
instead of the effective key `[1,2,3]` produced by §4.1, so the base entry
`([1],[2,3,4,5])` — whose effective key is tombstoned — is yielded. -/
theorem first_tombstone_check_uses_raw_key :
    envAutoTomb.entryDeleted (convertAutoDupsort envAutoTomb [1] [2, 3, 4, 5]) = true ∧
    (MFirst envAutoTomb (initState [([1], [2, 3, 4, 5])] [])).2 =
      (some [1], some [2, 3, 4, 5]) :=
  ⟨by decide, by decide⟩

end MemCursor
namespace MemCursor

theorem seekExact_found {c : SubCursor} {k v : Bytes} (h : (k, v) ∈ c.entries) :
    ∃ w, (c.seekExact k).2 = (some k, some w) ∧ (k, w) ∈ c.entries := by
  unfold SubCursor.seekExact
  rcases hj : findIdxFrom (fun e => decide (e.1 = k)) c.entries 0 with _ | j
  · obtain ⟨n, hn⟩ := List.mem_iff_getElem?.mp h
    have := findIdxFrom_none hj n (Nat.zero_le _) _ hn
    simp at this
  · obtain ⟨e, he, hfe⟩ := findIdxFrom_some_found hj
    have hek : e.1 = k := by simpa using hfe
    refine ⟨e.2, ?_, ?_⟩
    · dsimp only
      rw [read_some he, hek]
    · have hmem : e ∈ c.entries := List.getElem?_mem he
      rwa [show e = (e.1, e.2) from rfl, hek] at hmem

theorem seekExact_not_found {c : SubCursor} {k : Bytes}
    (h : ¬∃ v, (k, v) ∈ c.entries) : (c.seekExact k).2 = (none, none) := by
  unfold SubCursor.seekExact
  rcases hj : findIdxFrom (fun e => decide (e.1 = k)) c.entries 0 with _ | j
  · rfl
  · obtain ⟨e, he, hfe⟩ := findIdxFrom_some_found hj
    have hek : e.1 = k := by simpa using hfe
    exfalso
    refine h ⟨e.2, ?_⟩
    have hmem : e ∈ c.entries := List.getElem?_mem he
    rwa [show e = (e.1, e.2) from rfl, hek] at hmem

theorem seekExact_entries (c : SubCursor) (k : Bytes) :
    (c.seekExact k).1.entries = c.entries := by
  unfold SubCursor.seekExact
  rcases hj : findIdxFrom (fun e => decide (e.1 = k)) c.entries 0 with _ | j <;> rfl

theorem seek_snd_eq_of_entries {c c' : SubCursor} (h : c.entries = c'.entries) (k : Bytes) :
    (c.seek k).2 = (c'.seek k).2 := by
  rcases c with ⟨l, p⟩
  rcases c' with ⟨l', p'⟩
  cases h
  exact seek_result_pos_invariant l p p' k

end MemCursor
namespace MemCursor

/-- C6: `SeekExact(k)` returns the overlay entry whenever the overlay
contains key `k` (recording `prev_from_db = false` and the base `Seek(k)`
result as the held base lookahead); otherwise it returns the base entry
exactly when the base contains `k`, the table is not cleared and `k` is not
tombstoned (recording `prev_from_db = true` and the overlay `Seek(k)` result
as the held overlay lookahead); in all other cases it returns null, and
every non-null result carries key exactly `k`. -/
theorem seekExact_rule (env : Env) (st : MState) (k : Bytes) :
    ((∃ v, (k, v) ∈ st.memCursor.entries) →
      (MSeekExact env st k).1.isPrevFromDb = false ∧
      (MSeekExact env st k).1.currentDbEntry =
        ⟨(st.cursor.seek k).2.1, (st.cursor.seek k).2.2⟩ ∧
      ∃ v, (MSeekExact env st k).2 = (some k, some v) ∧ (k, v) ∈ st.memCursor.entries) ∧
    ((¬∃ v, (k, v) ∈ st.memCursor.entries) →
      ((∃ v, (k, v) ∈ st.cursor.entries) → env.tableCleared = false →
          env.entryDeleted k = false →
        (MSeekExact env st k).1.isPrevFromDb = true ∧
        (MSeekExact env st k).1.currentMemEntry =
          ⟨(st.memCursor.seek k).2.1, (st.memCursor.seek k).2.2⟩ ∧
        ∃ v, (MSeekExact env st k).2 = (some k, some v) ∧ (k, v) ∈ st.cursor.entries) ∧
      ((env.tableCleared = true ∨ env.entryDeleted k = true ∨
          ¬∃ v, (k, v) ∈ st.cursor.entries) →
        (MSeekExact env st k).2 = (none, none))) ∧
    (∀ k' v', (MSeekExact env st k).2 = (some k', v') → k' = k) := by
  by_cases hmem : ∃ v, (k, v) ∈ st.memCursor.entries
  · obtain ⟨v, hv⟩ := hmem
    obtain ⟨w, hm, hw⟩ := seekExact_found hv
    refine ⟨fun _ => ⟨?_, ?_, w, ?_, hw⟩, fun hn => absurd ⟨v, hv⟩ hn, ?_⟩
    · simp [MSeekExact, hm]
    · simp [MSeekExact, hm]
    · simp [MSeekExact, hm]
    · intro k' v' hres
      simp [MSeekExact, hm] at hres
      exact hres.1.symm
  · have hm0 : (st.memCursor.seekExact k).2 = (none, none) := seekExact_not_found hmem
    have hseek : ((st.memCursor.seekExact k).1.seek k).2 = (st.memCursor.seek k).2 :=
      seek_snd_eq_of_entries (seekExact_entries _ _) k
    refine ⟨fun hn => absurd hn hmem, fun _ => ⟨?_, ?_⟩, ?_⟩
    · rintro ⟨v, hv⟩ hcl hdel
      obtain ⟨w, hd, hw⟩ := seekExact_found hv
      refine ⟨?_, ?_, w, ?_, hw⟩
      · simp [MSeekExact, hm0, hd, hcl, hdel]
      · simp [MSeekExact, hm0, hd, hcl, hdel, hseek]
      · simp [MSeekExact, hm0, hd, hcl, hdel]
    · intro hcase
      rcases hcase with hcl | hdel | hnodb
      · simp [MSeekExact, hm0, hcl]
      · simp [MSeekExact, hm0, hdel]
      · have hd0 : (st.cursor.seekExact k).2 = (none, none) := seekExact_not_found hnodb
        simp [MSeekExact, hm0, hd0]
    · intro k' v' hres
      by_cases hdb : ∃ v, (k, v) ∈ st.cursor.entries
      · obtain ⟨v, hv⟩ := hdb
        obtain ⟨w, hd, hw⟩ := seekExact_found hv
        by_cases hcl : env.tableCleared = false
        · by_cases hdel : env.entryDeleted k = false
          · simp [MSeekExact, hm0, hd, hcl, hdel] at hres
            exact hres.1.symm
          · replace hdel : env.entryDeleted k = true := by simpa using hdel
            simp [MSeekExact, hm0, hdel] at hres
        · replace hcl : env.tableCleared = true := by simpa using hcl
          simp [MSeekExact, hm0, hcl] at hres
      · have hd0 : (st.cursor.seekExact k).2 = (none, none) := seekExact_not_found hdb
        simp [MSeekExact, hm0, hd0] at hres

end MemCursor
namespace MemCursor

/-- Witness for C6: the overlay value wins for `SeekExact` when both sides
hold key `[5]`, and the base value surfaces when only the base holds it. -/
theorem seekExact_rule_witness :
    (MSeekExact envPlain (initState [([5], [1])] [([5], [9])]) [5]).2 =
      (some [5], some [9]) ∧
    (MSeekExact envPlain (initState [([5], [1])] []) [5]).2 = (some [5], some [1]) := by
  constructor
  · obtain ⟨-, -, v, hres, hmem⟩ :=
      (seekExact_rule envPlain (initState [([5], [1])] [([5], [9])]) [5]).1
        ⟨[9], by simp [initState]⟩
    have hv : v = [9] := by simpa [initState] using hmem
    rwa [hv] at hres
  · obtain ⟨-, -, v, hres, hmem⟩ :=
      ((seekExact_rule envPlain (initState [([5], [1])] []) [5]).2.1
        (by simp [initState])).1 ⟨[1], by simp [initState]⟩ rfl rfl
    have hv : v = [1] := by simpa [initState] using hmem
    rwa [hv] at hres

end MemCursor
namespace MemCursor

instance : IsTrans Entry entryLe := ⟨fun _ _ _ => entryLe_trans⟩

theorem chain'_le_index {l : List Entry} (h : List.Chain' entryLe l) {i j : Nat} {a b : Entry}
    (hij : i ≤ j) (ha : l[i]? = some a) (hb : l[j]? = some b) : entryLe a b := by
  rcases Nat.eq_or_lt_of_le hij with rfl | hlt
  · rw [ha] at hb
    cases hb
    exact entryLe_refl a
  · have hp := List.chain'_iff_pairwise.mp h
    have hi : i < l.length := get?_some_lt ha
    have hj : j < l.length := get?_some_lt hb
    have haa : l[i] = a := by
      rw [List.getElem?_eq_getElem hi] at ha
      exact Option.some.inj ha
    have hbb : l[j] = b := by
      rw [List.getElem?_eq_getElem hj] at hb
      exact Option.some.inj hb
    have hr := List.pairwise_iff_get.mp hp ⟨i, hi⟩ ⟨j, hj⟩ hlt
    rw [List.get_eq_getElem, List.get_eq_getElem] at hr
    rwa [haa, hbb] at hr

theorem step_entries_preserved (t : NextType) (c : SubCursor) :
    (SubCursor.step t c).1.entries = c.entries := by
  cases t with
  | Normal => rfl
  | Dup =>
    rw [show SubCursor.step .Dup c = c.nextDup from rfl]
    unfold SubCursor.nextDup
    split
    · split <;> rfl
    · rfl
  | NoDup =>
    rw [show SubCursor.step .NoDup c = c.nextNoDup from rfl]
    unfold SubCursor.nextNoDup
    split
    · rfl
    · split <;> rfl

theorem step_result_entry {t : NextType} {c c' : SubCursor} {k v : Bytes}
    (h : SubCursor.step t c = (c', some k, some v)) :
    c'.entries = c.entries ∧ c.pos < c'.pos ∧ c'.entries[c'.pos]? = some (k, v) := by
  cases t with
  | Normal =>
    rw [show SubCursor.step .Normal c =
      ({ c with pos := c.pos + 1 }, c.read (c.pos + 1)) from rfl] at h
    rcases hg : c.entries[c.pos + 1]? with _ | e
    · rw [read_none hg] at h
      simp at h
    · rw [read_some hg] at h
      simp only [Prod.mk.injEq] at h
      obtain ⟨hc, hk, hv⟩ := h
      subst hc
      refine ⟨rfl, Nat.lt_succ_self c.pos, ?_⟩
      show c.entries[c.pos + 1]? = some (k, v)
      rw [hg, ← Option.some.inj hk, ← Option.some.inj hv]
  | Dup =>
    rw [show SubCursor.step .Dup c = c.nextDup from rfl] at h
    unfold SubCursor.nextDup at h
    split at h
    · rename_i e e' heq heq'
      by_cases he : e'.1 = e.1
      · rw [if_pos he] at h
        simp only [Prod.mk.injEq] at h
        obtain ⟨hc, hk, hv⟩ := h
        subst hc
        refine ⟨rfl, Nat.lt_succ_self c.pos, ?_⟩
        show c.entries[c.pos + 1]? = some (k, v)
        rw [heq', ← Option.some.inj hk, ← Option.some.inj hv]
      · rw [if_neg he] at h
        simp at h
    · simp at h
  | NoDup =>
    rw [show SubCursor.step .NoDup c = c.nextNoDup from rfl] at h
    unfold SubCursor.nextNoDup at h
    split at h
    · simp at h
    · rename_i e heq
      split at h
      · rename_i j hj
        have hb := findIdxFrom_some_bounds hj
        rcases hgj : c.entries[j]? with _ | e'
        · rw [read_none hgj] at h
          simp at h
        · rw [read_some hgj] at h
          simp only [Prod.mk.injEq] at h
          obtain ⟨hc, hk, hv⟩ := h
          subst hc
          refine ⟨rfl, show c.pos < j by omega, ?_⟩
          show c.entries[j]? = some (k, v)
          rw [hgj, ← Option.some.inj hk, ← Option.some.inj hv]
      · simp at h

theorem step_pos_mono (t : NextType) (c : SubCursor) :
    c.pos ≤ (SubCursor.step t c).1.pos := by
  cases t with
  | Normal => exact Nat.le_succ c.pos
  | Dup =>
    rw [show SubCursor.step .Dup c = c.nextDup from rfl]
    unfold SubCursor.nextDup
    split
    · split
      · exact Nat.le_succ c.pos
      · exact Nat.le_refl c.pos
    · exact Nat.le_refl c.pos
  | NoDup =>
    rw [show SubCursor.step .NoDup c = c.nextNoDup from rfl]
    unfold SubCursor.nextNoDup
    split
    · exact Nat.le_refl c.pos
    · split
      · rename_i e heq j hj
        have hb := findIdxFrom_some_bounds hj
        show c.pos ≤ j
        omega
      · exact Nat.le_refl c.pos

theorem getNextOnDbAux_sound (env : Env) (t : NextType) :
    ∀ (fuel : Nat) (c : SubCursor),
      (getNextOnDbAux env t fuel c).1.entries = c.entries ∧
      c.pos ≤ (getNextOnDbAux env t fuel c).1.pos ∧
      ∀ {k v : Bytes}, (getNextOnDbAux env t fuel c).2 = (some k, some v) →
        c.pos < (getNextOnDbAux env t fuel c).1.pos ∧
        c.entries[(getNextOnDbAux env t fuel c).1.pos]? = some (k, v) := by
  intro fuel
  induction fuel with
  | zero =>
    intro c
    have h0 : getNextOnDbAux env t 0 c = SubCursor.step t c := rfl
    rw [h0]
    refine ⟨step_entries_preserved t c, step_pos_mono t c, ?_⟩
    intro k v h
    have hs : SubCursor.step t c = ((SubCursor.step t c).1, some k, some v) :=
      Prod.ext rfl h
    obtain ⟨he, hp, hentry⟩ := step_result_entry hs
    exact ⟨hp, by rwa [he] at hentry⟩
  | succ n ih =>
    intro c
    unfold getNextOnDbAux
    split
    · rename_i c' key value hs
      by_cases hd : env.entryDeleted (convertAutoDupsort env key value)
      · rw [if_pos hd]
        obtain ⟨he1, hp1, -⟩ := step_result_entry hs
        obtain ⟨ihe, ihp, ihs⟩ := ih c'
        refine ⟨by rw [ihe, he1], by omega, ?_⟩
        intro k v h
        obtain ⟨hlt, hentry⟩ := ihs h
        exact ⟨by omega, by rwa [he1] at hentry⟩
      · rw [if_neg hd]
        obtain ⟨he1, hp1, hentry⟩ := step_result_entry hs
        refine ⟨he1, Nat.le_of_lt hp1, ?_⟩
        intro k v h
        simp only [Prod.mk.injEq] at h
        obtain ⟨hk, hv⟩ := h
        obtain rfl := Option.some.inj hk
        obtain rfl := Option.some.inj hv
        exact ⟨hp1, by rwa [he1] at hentry⟩
    · rename_i r hne
      refine ⟨step_entries_preserved t c, step_pos_mono t c, ?_⟩
      intro k v h
      have hstep : SubCursor.step t c = ((SubCursor.step t c).1, some k, some v) :=
        Prod.ext rfl h
      obtain ⟨he, hp, hentry⟩ := step_result_entry hstep
      exact ⟨hp, by rwa [he] at hentry⟩

theorem getNextOnDb_sound (env : Env) (t : NextType) (c : SubCursor) :
    (getNextOnDb env t c).1.entries = c.entries ∧
    c.pos ≤ (getNextOnDb env t c).1.pos ∧
    ∀ {k v : Bytes}, (getNextOnDb env t c).2 = (some k, some v) →
      c.pos < (getNextOnDb env t c).1.pos ∧
      c.entries[(getNextOnDb env t c).1.pos]? = some (k, v) :=
  getNextOnDbAux_sound env t (c.entries.length + 1) c

end MemCursor
namespace MemCursor

theorem step_shape (t : NextType) (c : SubCursor) :
    (SubCursor.step t c).2 = (none, none) ∨
    ∃ k v, (SubCursor.step t c).2 = (some k, some v) := by
  cases t with
  | Normal =>
    rw [show SubCursor.step .Normal c =
      ({ c with pos := c.pos + 1 }, c.read (c.pos + 1)) from rfl]
    rcases hg : c.entries[c.pos + 1]? with _ | e
    · rw [read_none hg]
      exact Or.inl rfl
    · rw [read_some hg]
      exact Or.inr ⟨e.1, e.2, rfl⟩
  | Dup =>
    rw [show SubCursor.step .Dup c = c.nextDup from rfl]
    unfold SubCursor.nextDup
    split
    · split
      · rename_i e e' heq heq' he
        exact Or.inr ⟨e'.1, e'.2, rfl⟩
      · exact Or.inl rfl
    · exact Or.inl rfl
  | NoDup =>
    rw [show SubCursor.step .NoDup c = c.nextNoDup from rfl]
    unfold SubCursor.nextNoDup
    split
    · exact Or.inl rfl
    · split
      · rename_i e heq j hj
        rcases hg : c.entries[j]? with _ | e'
        · rw [show SubCursor.read c j = (none, none) from read_none hg]
          exact Or.inl rfl
        · rw [show SubCursor.read c j = (some e'.1, some e'.2) from read_some hg]
          exact Or.inr ⟨e'.1, e'.2, rfl⟩
      · exact Or.inl rfl

theorem getNextOnDbAux_shape (env : Env) (t : NextType) :
    ∀ (fuel : Nat) (c : SubCursor),
      (getNextOnDbAux env t fuel c).2 = (none, none) ∨
      ∃ k v, (getNextOnDbAux env t fuel c).2 = (some k, some v) := by
  intro fuel
  induction fuel with
  | zero => intro c; exact step_shape t c
  | succ n ih =>
    intro c
    unfold getNextOnDbAux
    split
    · rename_i c' key value hs
      by_cases hd : env.entryDeleted (convertAutoDupsort env key value)
      · rw [if_pos hd]
        exact ih c'
      · rw [if_neg hd]
        exact Or.inr ⟨key, value, rfl⟩
    · rename_i r hne
      exact step_shape t c

theorem getNextOnDb_shape (env : Env) (t : NextType) (c : SubCursor) :
    (getNextOnDb env t c).2 = (none, none) ∨
    ∃ k v, (getNextOnDb env t c).2 = (some k, some v) :=
  getNextOnDbAux_shape env t (c.entries.length + 1) c

theorem skipIntersection_cases (env : Env) (mk mv dk dv : Option Bytes)
    (t : NextType) (c : SubCursor) :
    skipIntersection env mk mv dk dv t c = (c, dk, dv) ∨
    (goEqual mk dk = true ∧
      skipIntersection env mk mv dk dv t c = getNextOnDb env t c) := by
  unfold skipIntersection
  by_cases hk : goEqual mk dk = true
  · rw [if_pos hk]
    by_cases h1 : env.dupSort = false
    · rw [if_pos h1]
      exact Or.inr ⟨hk, rfl⟩
    · rw [if_neg h1]
      by_cases h2 : goEqual mv dv = true
      · rw [if_pos h2]
        exact Or.inr ⟨hk, rfl⟩
      · rw [if_neg h2]
        split
        · exact Or.inr ⟨hk, rfl⟩
        · exact Or.inl rfl
  · rw [if_neg hk]
    exact Or.inl rfl

theorem prevCalc_true_le {em ed : Entry}
    (h : prevFromDbCalc (some em.1) (some em.2) (some ed.1) (some ed.2) = true) :
    entryLe ed em := by
  unfold prevFromDbCalc at h
  by_cases hk : goEqual (some em.1) (some ed.1) = true
  · rw [if_pos hk] at h
    have hkeq : em.1 = ed.1 := by simpa [goEqual, goBytes] using hk
    simp only [Option.isSome_some, Option.isNone_some, Bool.true_and,
      Bool.false_or] at h
    have hgt : bytesCompare em.2 ed.2 = .gt := by
      simpa [goCompare, goBytes, ordering_beq_gt] using h
    exact Or.inr ⟨hkeq.symm, (bytesLe_iff _ _).mpr (Or.inl (bytesLt_iff_gt_swap.mp hgt))⟩
  · rw [if_neg hk] at h
    simp only [Option.isSome_some, Option.isNone_some, Bool.true_and,
      Bool.false_or] at h
    have hgt : bytesCompare em.1 ed.1 = .gt := by
      simpa [goCompare, goBytes, ordering_beq_gt] using h
    exact Or.inl (bytesLt_iff_gt_swap.mp hgt)

theorem prevCalc_false_le {em ed : Entry}
    (h : prevFromDbCalc (some em.1) (some em.2) (some ed.1) (some ed.2) = false) :
    entryLe em ed := by
  unfold prevFromDbCalc at h
  by_cases hk : goEqual (some em.1) (some ed.1) = true
  · rw [if_pos hk] at h
    have hkeq : em.1 = ed.1 := by simpa [goEqual, goBytes] using hk
    simp only [Option.isSome_some, Option.isNone_some, Bool.true_and,
      Bool.false_or] at h
    have hle : bytesCompare em.2 ed.2 ≠ .gt := by
      intro hgt
      rw [show goCompare (some em.2) (some ed.2) = bytesCompare em.2 ed.2 from rfl] at h
      rw [hgt] at h
      exact absurd h (by decide)
    exact Or.inr ⟨hkeq, hle⟩
  · rw [if_neg hk] at h
    have hkne : em.1 ≠ ed.1 := by
      intro he
      exact hk (by simp [goEqual, goBytes, he])
    simp only [Option.isSome_some, Option.isNone_some, Bool.true_and,
      Bool.false_or] at h
    have hle : bytesCompare em.1 ed.1 ≠ .gt := by
      intro hgt
      rw [show goCompare (some em.1) (some ed.1) = bytesCompare em.1 ed.1 from rfl] at h
      rw [hgt] at h
      exact absurd h (by decide)
    rcases (bytesLe_iff em.1 ed.1).mp hle with hlt | heq
    · exact Or.inl hlt
    · exact absurd heq hkne

end MemCursor
namespace MemCursor

/-- All keys of a store are non-empty (MDBX forbids empty keys). -/
def keysNonempty (l : List Entry) : Prop := ∀ e ∈ l, e.1 ≠ []

/-- Both underlying stores are sorted in merge order with non-empty keys. -/
def WFStores (st : MState) : Prop :=
  List.Chain' entryLe st.cursor.entries ∧ List.Chain' entryLe st.memCursor.entries ∧
  keysNonempty st.cursor.entries ∧ keysNonempty st.memCursor.entries

/-- The overlay-side held lookahead: empty with the overlay exhausted, or
the entry at the overlay cursor's position, not before `last`. -/
def memHeld (st : MState) (last : Entry) : Prop :=
  (st.currentMemEntry = CursorEntry.empty ∧
    st.memCursor.entries.length ≤ st.memCursor.pos) ∨
  (∃ e, st.currentMemEntry = ⟨some e.1, some e.2⟩ ∧
    st.memCursor.entries[st.memCursor.pos]? = some e ∧ entryLe last e)

/-- The base-side held lookahead: empty, or the entry at the base cursor's
position, not before `last`. -/
def dbHeld (st : MState) (last : Entry) : Prop :=
  st.currentDbEntry = CursorEntry.empty ∨
  (∃ e, st.currentDbEntry = ⟨some e.1, some e.2⟩ ∧
    st.cursor.entries[st.cursor.pos]? = some e ∧ entryLe last e)

/-- The ordering invariant after a yield of `last`. -/
def OrdInv (st : MState) (last : Entry) : Prop :=
  WFStores st ∧
  (st.isPrevFromDb = true →
    st.cursor.entries[st.cursor.pos]? = some last ∧ memHeld st last) ∧
  (st.isPrevFromDb = false →
    st.memCursor.entries[st.memCursor.pos]? = some last ∧ dbHeld st last)

/-- The overlay-side candidate handed to `goForward`. -/
def memCand (st : MState) (mk mv : Option Bytes) : Prop :=
  (mk = none ∧ mv = none ∧ st.memCursor.entries.length ≤ st.memCursor.pos) ∨
  (∃ e, mk = some e.1 ∧ mv = some e.2 ∧
    st.memCursor.entries[st.memCursor.pos]? = some e)

/-- The base-side candidate handed to `goForward`. -/
def dbCand (st : MState) (dk dv : Option Bytes) : Prop :=
  (dk = none ∧ dv = none) ∨
  (∃ e, dk = some e.1 ∧ dv = some e.2 ∧ st.cursor.entries[st.cursor.pos]? = some e)

theorem goForward_eq (env : Env) (st : MState) (mk mv dk dv : Option Bytes)
    (t : NextType) (h0 : ¬(mv = none ∧ dv = none)) :
    goForward env st mk mv dk dv t =
      ({ st with
          cursor := (skipIntersection env mk mv dk dv t st.cursor).1,
          isPrevFromDb := prevFromDbCalc mk mv
            (skipIntersection env mk mv dk dv t st.cursor).2.1
            (skipIntersection env mk mv dk dv t st.cursor).2.2,
          currentDbEntry :=
            if (skipIntersection env mk mv dk dv t st.cursor).2.2 = none then
              CursorEntry.empty
            else ⟨(skipIntersection env mk mv dk dv t st.cursor).2.1,
                  (skipIntersection env mk mv dk dv t st.cursor).2.2⟩,
          currentMemEntry := if mv = none then CursorEntry.empty else ⟨mk, mv⟩ },
        if prevFromDbCalc mk mv (skipIntersection env mk mv dk dv t st.cursor).2.1
            (skipIntersection env mk mv dk dv t st.cursor).2.2 then
          ((skipIntersection env mk mv dk dv t st.cursor).2.1,
           (skipIntersection env mk mv dk dv t st.cursor).2.2)
        else (mk, mv)) := by
  rw [goForward, if_neg h0]
  dsimp only
  split <;> rfl

end MemCursor
namespace MemCursor

theorem goForward_ord (env : Env) (st : MState) (mk mv dk dv : Option Bytes)
    (hwf : WFStores st) (hmc : memCand st mk mv) (hdc : dbCand st dk dv) :
    ∀ {k v : Bytes}, (goForward env st mk mv dk dv .Normal).2 = (some k, some v) →
      OrdInv (goForward env st mk mv dk dv .Normal).1 (k, v) ∧
      ((mk = some k ∧ mv = some v) ∨
       (st.cursor.pos ≤ (goForward env st mk mv dk dv .Normal).1.cursor.pos ∧
        (goForward env st mk mv dk dv .Normal).1.cursor.entries = st.cursor.entries ∧
        st.cursor.entries[(goForward env st mk mv dk dv .Normal).1.cursor.pos]? =
          some (k, v) ∧
        (dv ≠ none ∨ goEqual mk dk = true))) := by
  intro k v h
  by_cases h0 : mv = none ∧ dv = none
  · rw [goForward, if_pos h0] at h
    simp at h
  obtain ⟨hre, hrpos, hrcand⟩ :
      (skipIntersection env mk mv dk dv .Normal st.cursor).1.entries =
        st.cursor.entries ∧
      st.cursor.pos ≤ (skipIntersection env mk mv dk dv .Normal st.cursor).1.pos ∧
      (((skipIntersection env mk mv dk dv .Normal st.cursor).2.1 = none ∧
        (skipIntersection env mk mv dk dv .Normal st.cursor).2.2 = none) ∨
       (∃ ed, (skipIntersection env mk mv dk dv .Normal st.cursor).2.1 = some ed.1 ∧
         (skipIntersection env mk mv dk dv .Normal st.cursor).2.2 = some ed.2 ∧
         st.cursor.entries[(skipIntersection env mk mv dk dv .Normal st.cursor).1.pos]? =
           some ed)) := by
    rcases skipIntersection_cases env mk mv dk dv .Normal st.cursor with hid | ⟨hkeq, hgn⟩
    · rw [hid]
      refine ⟨rfl, Nat.le_refl _, ?_⟩
      rcases hdc with ⟨h1, h2⟩ | ⟨ed, h1, h2, h3⟩
      · exact Or.inl ⟨h1, h2⟩
      · exact Or.inr ⟨ed, h1, h2, h3⟩
    · rw [hgn]
      obtain ⟨hge, hgp, hgs⟩ := getNextOnDb_sound env .Normal st.cursor
      refine ⟨hge, hgp, ?_⟩
      rcases getNextOnDb_shape env .Normal st.cursor with hsh | ⟨k', v', hsh⟩
      · exact Or.inl ⟨by rw [hsh], by rw [hsh]⟩
      · obtain ⟨-, hentry⟩ := hgs hsh
        exact Or.inr ⟨(k', v'), by rw [hsh], by rw [hsh], hentry⟩
  rw [goForward_eq env st mk mv dk dv .Normal h0] at h ⊢
  rcases hR : skipIntersection env mk mv dk dv .Normal st.cursor with ⟨rc, rk, rv⟩
  rw [hR] at hre hrpos hrcand h
  dsimp only at hre hrpos hrcand h ⊢
  by_cases hp : prevFromDbCalc mk mv rk rv = true
  · rw [if_pos hp] at h
    rcases hrcand with ⟨hn1, hn2⟩ | ⟨ed, he1, he2, he3⟩
    · rw [hn1, hn2] at h
      simp at h
    · rw [he1, he2] at h
      simp only [Prod.mk.injEq, Option.some.injEq] at h
      have hed : ed = (k, v) := Prod.ext h.1 h.2
      subst hed
      have hlive : dv ≠ none ∨ goEqual mk dk = true := by
        rcases skipIntersection_cases env mk mv dk dv .Normal st.cursor with hid | ⟨hkeq, -⟩
        · have hcomb := hid.symm.trans hR
          simp only [Prod.mk.injEq] at hcomb
          left
          rw [hcomb.2.2, he2]
          simp
        · exact Or.inr hkeq
      refine ⟨⟨⟨?_, hwf.2.1, ?_, hwf.2.2.2⟩, ?_, ?_⟩, Or.inr ⟨hrpos, hre, he3, hlive⟩⟩
      · show List.Chain' entryLe rc.entries
        rw [hre]
        exact hwf.1
      · show keysNonempty rc.entries
        rw [hre]
        exact hwf.2.2.1
      · intro _
        refine ⟨?_, ?_⟩
        · show rc.entries[rc.pos]? = some (k, v)
          rw [hre]
          exact he3
        · rcases hmc with ⟨hm1, hm2, hm3⟩ | ⟨em, hm1, hm2, hm3⟩
          · left
            refine ⟨?_, hm3⟩
            show (if mv = none then CursorEntry.empty else ⟨mk, mv⟩) = CursorEntry.empty
            rw [if_pos hm2]
          · right
            refine ⟨em, ?_, hm3, ?_⟩
            · show (if mv = none then CursorEntry.empty else ⟨mk, mv⟩) = _
              rw [if_neg (by rw [hm2]; simp), hm1, hm2]
            · rw [hm1, hm2, he1, he2] at hp
              exact @prevCalc_true_le em (k, v) hp
      · intro hfalse
        have hff : prevFromDbCalc mk mv rk rv = false := hfalse
        rw [hp] at hff
        exact absurd hff (by decide)
  · have hp2 : prevFromDbCalc mk mv rk rv = false := by simpa using hp
    rw [if_neg hp] at h
    rcases hmc with ⟨hm1, hm2, hm3⟩ | ⟨em, hm1, hm2, hm3⟩
    · rw [hm1, hm2] at h
      simp at h
    · rw [hm1, hm2] at h
      simp only [Prod.mk.injEq, Option.some.injEq] at h
      have hem : em = (k, v) := Prod.ext h.1 h.2
      subst hem
      refine ⟨⟨⟨?_, hwf.2.1, ?_, hwf.2.2.2⟩, ?_, ?_⟩, Or.inl ⟨by rw [hm1], by rw [hm2]⟩⟩
      · show List.Chain' entryLe rc.entries
        rw [hre]
        exact hwf.1
      · show keysNonempty rc.entries
        rw [hre]
        exact hwf.2.2.1
      · intro htrue
        have htt : prevFromDbCalc mk mv rk rv = true := htrue
        rw [hp2] at htt
        exact absurd htt (by decide)
      · intro _
        refine ⟨hm3, ?_⟩
        by_cases hrv : rv = none
        · left
          show (if rv = none then CursorEntry.empty else ⟨rk, rv⟩) = CursorEntry.empty
          rw [if_pos hrv]
        · rcases hrcand with ⟨hn1, hn2⟩ | ⟨ed, he1, he2, he3⟩
          · exact absurd hn2 hrv
          · right
            refine ⟨ed, ?_, ?_, ?_⟩
            · show (if rv = none then CursorEntry.empty else ⟨rk, rv⟩) = _
              rw [if_neg hrv, he1, he2]
            · show rc.entries[rc.pos]? = some ed
              rw [hre]
              exact he3
            · rw [hm1, hm2, he1, he2] at hp2
              exact @prevCalc_false_le (k, v) ed hp2

end MemCursor
namespace MemCursor

theorem MNext_ord (env : Env) (st : MState) (last : Entry) (hinv : OrdInv st last) :
    ∀ {k v : Bytes}, (MNext env st).2 = (some k, some v) →
      entryLe last (k, v) ∧ OrdInv (MNext env st).1 (k, v) := by
  intro k v h
  obtain ⟨hwf, hptrue, hpfalse⟩ := hinv
  by_cases hprev : st.isPrevFromDb = true
  · obtain ⟨hlast, hmh⟩ := hptrue hprev
    rw [MNext, if_pos hprev] at h ⊢
    dsimp only at h ⊢
    obtain ⟨hge, hgp, hgs⟩ := getNextOnDb_sound env .Normal st.cursor
    rcases hmh with ⟨hme, hmlen⟩ | ⟨e, hmeq, hmpos, hmle⟩
    · -- overlay exhausted; if the base side also returned null, h is absurd
      rcases getNextOnDb_shape env .Normal st.cursor with hs0 | ⟨k', v', hs1⟩
      · rw [goForward, if_pos ⟨by rw [hme]; rfl, by rw [hs0]⟩] at h
        simp at h
      · -- base entry k', v' becomes the candidate
        have hmc : memCand { st with cursor := (getNextOnDb env .Normal st.cursor).1 }
            st.currentMemEntry.key st.currentMemEntry.value := by
          left
          exact ⟨by rw [hme]; rfl, by rw [hme]; rfl, hmlen⟩
        have hdc : dbCand { st with cursor := (getNextOnDb env .Normal st.cursor).1 }
            (getNextOnDb env .Normal st.cursor).2.1
            (getNextOnDb env .Normal st.cursor).2.2 := by
          right
          refine ⟨(k', v'), by rw [hs1], by rw [hs1], ?_⟩
          show (getNextOnDb env .Normal st.cursor).1.entries[_]? = _
          rw [hge]
          exact (hgs hs1).2
        have hwf1 : WFStores { st with cursor := (getNextOnDb env .Normal st.cursor).1 } := by
          refine ⟨?_, hwf.2.1, ?_, hwf.2.2.2⟩
          · show List.Chain' entryLe (getNextOnDb env .Normal st.cursor).1.entries
            rw [hge]
            exact hwf.1
          · show keysNonempty (getNextOnDb env .Normal st.cursor).1.entries
            rw [hge]
            exact hwf.2.2.1
        obtain ⟨hOrd, hdisj⟩ := goForward_ord env _ _ _ _ _ hwf1 hmc hdc h
        refine ⟨?_, hOrd⟩
        rcases hdisj with ⟨hk1, -⟩ | ⟨hpos2, hent2, hidx2, -⟩
        · rw [hme] at hk1
          exact absurd hk1 (by simp [CursorEntry.empty])
        · have hidx2' : st.cursor.entries[(goForward env
              { st with cursor := (getNextOnDb env .Normal st.cursor).1 }
              st.currentMemEntry.key st.currentMemEntry.value
              (getNextOnDb env .Normal st.cursor).2.1
              (getNextOnDb env .Normal st.cursor).2.2 .Normal).1.cursor.pos]? =
              some (k, v) := by
            rw [← hge]
            exact hidx2
          refine chain'_le_index hwf.1 ?_ hlast hidx2'
          calc st.cursor.pos ≤ (getNextOnDb env .Normal st.cursor).1.pos := hgp
            _ ≤ _ := hpos2
    · -- overlay holds entry e
      have hmc : memCand { st with cursor := (getNextOnDb env .Normal st.cursor).1 }
          st.currentMemEntry.key st.currentMemEntry.value := by
        right
        exact ⟨e, by rw [hmeq], by rw [hmeq], hmpos⟩
      have hdc : dbCand { st with cursor := (getNextOnDb env .Normal st.cursor).1 }
          (getNextOnDb env .Normal st.cursor).2.1
          (getNextOnDb env .Normal st.cursor).2.2 := by
        rcases getNextOnDb_shape env .Normal st.cursor with hs0 | ⟨k', v', hs1⟩
        · left
          exact ⟨by rw [hs0], by rw [hs0]⟩
        · right
          refine ⟨(k', v'), by rw [hs1], by rw [hs1], ?_⟩
          show (getNextOnDb env .Normal st.cursor).1.entries[_]? = _
          rw [hge]
          exact (hgs hs1).2
      have hwf1 : WFStores { st with cursor := (getNextOnDb env .Normal st.cursor).1 } := by
        refine ⟨?_, hwf.2.1, ?_, hwf.2.2.2⟩
        · show List.Chain' entryLe (getNextOnDb env .Normal st.cursor).1.entries
          rw [hge]
          exact hwf.1
        · show keysNonempty (getNextOnDb env .Normal st.cursor).1.entries
          rw [hge]
          exact hwf.2.2.1
      obtain ⟨hOrd, hdisj⟩ := goForward_ord env _ _ _ _ _ hwf1 hmc hdc h
      refine ⟨?_, hOrd⟩
      rcases hdisj with ⟨hk1, hv1⟩ | ⟨hpos2, hent2, hidx2, -⟩
      · rw [hmeq] at hk1 hv1
        have he : e = (k, v) := by
          rcases e with ⟨e1, e2⟩
          simp only [Option.some.injEq] at hk1 hv1
          simp [hk1, hv1]
        rw [← he]
        exact hmle
      · have hidx2' : st.cursor.entries[(goForward env
            { st with cursor := (getNextOnDb env .Normal st.cursor).1 }
            st.currentMemEntry.key st.currentMemEntry.value
            (getNextOnDb env .Normal st.cursor).2.1
            (getNextOnDb env .Normal st.cursor).2.2 .Normal).1.cursor.pos]? =
            some (k, v) := by
          rw [← hge]
          exact hidx2
        refine chain'_le_index hwf.1 ?_ hlast hidx2'
        calc st.cursor.pos ≤ (getNextOnDb env .Normal st.cursor).1.pos := hgp
          _ ≤ _ := hpos2
  · have hprev' : st.isPrevFromDb = false := by simpa using hprev
    obtain ⟨hlast, hdh⟩ := hpfalse hprev'
    rw [MNext, if_neg hprev] at h ⊢
    dsimp only at h ⊢
    have hnext : st.memCursor.next =
        ({ st.memCursor with pos := st.memCursor.pos + 1 },
         st.memCursor.read (st.memCursor.pos + 1)) := rfl
    rcases hgm : st.memCursor.entries[st.memCursor.pos + 1]? with _ | e
    · -- overlay advanced past its end
      rcases hdh with hdbe | ⟨ed, hde, hdp, hdl⟩
      · rw [goForward, if_pos ⟨by rw [hnext, read_none hgm], by rw [hdbe]; rfl⟩] at h
        simp at h
      · have hmc : memCand { st with memCursor := (st.memCursor.next).1 }
            (st.memCursor.next).2.1 (st.memCursor.next).2.2 := by
          left
          refine ⟨by rw [hnext, read_none hgm], by rw [hnext, read_none hgm], ?_⟩
          show st.memCursor.entries.length ≤ st.memCursor.pos + 1
          exact List.getElem?_eq_none_iff.mp hgm
        have hdc : dbCand { st with memCursor := (st.memCursor.next).1 }
            st.currentDbEntry.key st.currentDbEntry.value := by
          right
          exact ⟨ed, by rw [hde], by rw [hde], hdp⟩
        have hwf1 : WFStores { st with memCursor := (st.memCursor.next).1 } :=
          ⟨hwf.1, hwf.2.1, hwf.2.2.1, hwf.2.2.2⟩
        obtain ⟨hOrd, hdisj⟩ := goForward_ord env _ _ _ _ _ hwf1 hmc hdc h
        refine ⟨?_, hOrd⟩
        rcases hdisj with ⟨hk1, -⟩ | ⟨hpos2, hent2, hidx2, -⟩
        · rw [hnext, read_none hgm] at hk1
          exact absurd hk1 (by simp)
        · refine entryLe_trans hdl (chain'_le_index hwf.1 ?_ hdp hidx2)
          exact hpos2
    · -- overlay has a next entry e
      have hmc : memCand { st with memCursor := (st.memCursor.next).1 }
          (st.memCursor.next).2.1 (st.memCursor.next).2.2 := by
        right
        refine ⟨e, by rw [hnext, read_some hgm], by rw [hnext, read_some hgm], ?_⟩
        show st.memCursor.entries[st.memCursor.pos + 1]? = some e
        exact hgm
      have hdc : dbCand { st with memCursor := (st.memCursor.next).1 }
          st.currentDbEntry.key st.currentDbEntry.value := by
        rcases hdh with hdbe | ⟨ed, hde, hdp, hdl⟩
        · left
          exact ⟨by rw [hdbe]; rfl, by rw [hdbe]; rfl⟩
        · right
          exact ⟨ed, by rw [hde], by rw [hde], hdp⟩
      have hwf1 : WFStores { st with memCursor := (st.memCursor.next).1 } :=
        ⟨hwf.1, hwf.2.1, hwf.2.2.1, hwf.2.2.2⟩
      obtain ⟨hOrd, hdisj⟩ := goForward_ord env _ _ _ _ _ hwf1 hmc hdc h
      refine ⟨?_, hOrd⟩
      rcases hdisj with ⟨hk1, hv1⟩ | ⟨hpos2, hent2, hidx2, hlive⟩
      · rw [hnext, read_some hgm] at hk1 hv1
        have he : e = (k, v) := by
          rcases e with ⟨e1, e2⟩
          simp only [Option.some.injEq] at hk1 hv1
          simp [hk1, hv1]
        refine entryLe_trans ?_ (chain'_le_index hwf.2.1 (Nat.le_succ _) hlast (he ▸ hgm))
        exact entryLe_refl last
      · rcases hdh with hdbe | ⟨ed, hde, hdp, hdl⟩
        · rcases hlive with hdvne | hkeq
          · rw [hdbe] at hdvne
            exact absurd rfl hdvne
          · rw [hdbe, hnext, read_some hgm] at hkeq
            have hekey : e.1 = [] := by simpa [goEqual, goBytes] using hkeq
            have hmem : e ∈ st.memCursor.entries := List.getElem?_mem hgm
            exact absurd hekey (hwf.2.2.2 e hmem)
        · refine entryLe_trans hdl (chain'_le_index hwf.1 ?_ hdp hidx2)
          exact hpos2

end MemCursor
namespace MemCursor

theorem MFirst_ord (env : Env) (st : MState) (hwf : WFStores st)
    (hdb0 : st.currentDbEntry = CursorEntry.empty) :
    ∀ {k v : Bytes}, (MFirst env st).2 = (some k, some v) →
      OrdInv (MFirst env st).1 (k, v) := by
  intro k v h
  have hfst : st.memCursor.first =
      ({ st.memCursor with pos := 0 }, st.memCursor.read 0) := rfl
  by_cases hcl : env.tableCleared = true
  · rw [MFirst] at h ⊢
    dsimp only at h ⊢
    rw [if_pos hcl] at h ⊢
    rcases hg0 : st.memCursor.entries[0]? with _ | e
    · rw [hfst, read_none hg0] at h
      simp at h
    · rw [hfst, read_some hg0] at h
      simp only [Prod.mk.injEq, Option.some.injEq] at h
      have he : e = (k, v) := Prod.ext h.1 h.2
      refine ⟨⟨hwf.1, hwf.2.1, hwf.2.2.1, hwf.2.2.2⟩, ?_, ?_⟩
      · intro htrue
        exact absurd htrue (by simp)
      · intro _
        refine ⟨?_, Or.inl hdb0⟩
        show st.memCursor.entries[(0 : Nat)]? = some (k, v)
        rw [hg0, he]
  · rw [MFirst] at h ⊢
    dsimp only at h ⊢
    rw [if_neg hcl] at h ⊢
    have hfstc : st.cursor.first = ({ st.cursor with pos := 0 }, st.cursor.read 0) := rfl
    rcases hgd : st.cursor.entries[0]? with _ | ed
    · have hrd : st.cursor.read 0 = (none, none) := read_none hgd
      simp only [hfstc, hrd] at h ⊢
      rw [if_neg (by simp)] at h ⊢
      rcases hg0 : st.memCursor.entries[0]? with _ | e
      · have hrm : st.memCursor.read 0 = (none, none) := read_none hg0
        simp only [hfst, hrm] at h
        rw [goForward, if_pos ⟨rfl, rfl⟩] at h
        simp at h
      · have hrm : st.memCursor.read 0 = (some e.1, some e.2) := read_some hg0
        simp only [hfst, hrm] at h ⊢
        have hwf1 : WFStores { st with
            memCursor := { st.memCursor with pos := 0 },
            cursor := { st.cursor with pos := 0 } } :=
          ⟨hwf.1, hwf.2.1, hwf.2.2.1, hwf.2.2.2⟩
        have hmc : memCand { st with
            memCursor := { st.memCursor with pos := 0 },
            cursor := { st.cursor with pos := 0 } } (some e.1) (some e.2) := by
          right
          refine ⟨e, rfl, rfl, ?_⟩
          show st.memCursor.entries[(0 : Nat)]? = some e
          exact hg0
        have hdc : dbCand { st with
            memCursor := { st.memCursor with pos := 0 },
            cursor := { st.cursor with pos := 0 } } none none :=
          Or.inl ⟨rfl, rfl⟩
        exact (goForward_ord env _ _ _ _ _ hwf1 hmc hdc h).1
    · have hrd : st.cursor.read 0 = (some ed.1, some ed.2) := read_some hgd
      simp only [hfstc, hrd] at h ⊢
      by_cases hC : (some ed.1 ≠ none ∧
          env.entryDeleted (goBytes (some ed.1)) = true)
      · rw [if_pos hC] at h ⊢
        obtain ⟨hge, hgp, hgs⟩ :=
          getNextOnDb_sound env .Normal { st.cursor with pos := 0 }
        have hwf1 : WFStores { st with
            memCursor := { st.memCursor with pos := 0 },
            cursor := (getNextOnDb env .Normal { st.cursor with pos := 0 }).1 } := by
          refine ⟨?_, hwf.2.1, ?_, hwf.2.2.2⟩
          · show List.Chain' entryLe
              (getNextOnDb env .Normal { st.cursor with pos := 0 }).1.entries
            rw [hge]
            exact hwf.1
          · show keysNonempty
              (getNextOnDb env .Normal { st.cursor with pos := 0 }).1.entries
            rw [hge]
            exact hwf.2.2.1
        have hdc : dbCand { st with
            memCursor := { st.memCursor with pos := 0 },
            cursor := (getNextOnDb env .Normal { st.cursor with pos := 0 }).1 }
            (getNextOnDb env .Normal { st.cursor with pos := 0 }).2.1
            (getNextOnDb env .Normal { st.cursor with pos := 0 }).2.2 := by
          rcases getNextOnDb_shape env .Normal { st.cursor with pos := 0 } with hs0 | ⟨k', v', hs1⟩
          · left
            exact ⟨by rw [hs0], by rw [hs0]⟩
          · right
            refine ⟨(k', v'), by rw [hs1], by rw [hs1], ?_⟩
            show (getNextOnDb env .Normal { st.cursor with pos := 0 }).1.entries[_]? = _
            rw [hge]
            exact (hgs hs1).2
        rcases hg0 : st.memCursor.entries[0]? with _ | e
        · have hrm : st.memCursor.read 0 = (none, none) := read_none hg0
          simp only [hfst, hrm] at h ⊢
          rcases getNextOnDb_shape env .Normal { st.cursor with pos := 0 } with hs0 | ⟨k', v', hs1⟩
          · rw [goForward, if_pos ⟨rfl, by rw [hs0]⟩] at h
            simp at h
          · have hmc : memCand { st with
                memCursor := { st.memCursor with pos := 0 },
                cursor := (getNextOnDb env .Normal { st.cursor with pos := 0 }).1 }
                none none := by
              left
              refine ⟨rfl, rfl, ?_⟩
              show st.memCursor.entries.length ≤ 0
              exact List.getElem?_eq_none_iff.mp hg0
            exact (goForward_ord env _ _ _ _ _ hwf1 hmc hdc h).1
        · have hrm : st.memCursor.read 0 = (some e.1, some e.2) := read_some hg0
          simp only [hfst, hrm] at h ⊢
          have hmc : memCand { st with
              memCursor := { st.memCursor with pos := 0 },
              cursor := (getNextOnDb env .Normal { st.cursor with pos := 0 }).1 }
              (some e.1) (some e.2) := by
            right
            refine ⟨e, rfl, rfl, ?_⟩
            show st.memCursor.entries[(0 : Nat)]? = some e
            exact hg0
          exact (goForward_ord env _ _ _ _ _ hwf1 hmc hdc h).1
      · rw [if_neg hC] at h ⊢
        have hwf1 : WFStores { st with
            memCursor := { st.memCursor with pos := 0 },
            cursor := { st.cursor with pos := 0 } } :=
          ⟨hwf.1, hwf.2.1, hwf.2.2.1, hwf.2.2.2⟩
        have hdc : dbCand { st with
            memCursor := { st.memCursor with pos := 0 },
            cursor := { st.cursor with pos := 0 } } (some ed.1) (some ed.2) := by
          right
          refine ⟨ed, rfl, rfl, ?_⟩
          show st.cursor.entries[(0 : Nat)]? = some ed
          exact hgd
        rcases hg0 : st.memCursor.entries[0]? with _ | e
        · have hrm : st.memCursor.read 0 = (none, none) := read_none hg0
          simp only [hfst, hrm] at h ⊢
          have hmc : memCand { st with
              memCursor := { st.memCursor with pos := 0 },
              cursor := { st.cursor with pos := 0 } } none none := by
            left
            refine ⟨rfl, rfl, ?_⟩
            show st.memCursor.entries.length ≤ 0
            exact List.getElem?_eq_none_iff.mp hg0
          exact (goForward_ord env _ _ _ _ _ hwf1 hmc hdc h).1
        · have hrm : st.memCursor.read 0 = (some e.1, some e.2) := read_some hg0
          simp only [hfst, hrm] at h ⊢
          have hmc : memCand { st with
              memCursor := { st.memCursor with pos := 0 },
              cursor := { st.cursor with pos := 0 } } (some e.1) (some e.2) := by
            right
            refine ⟨e, rfl, rfl, ?_⟩
            show st.memCursor.entries[(0 : Nat)]? = some e
            exact hg0
          exact (goForward_ord env _ _ _ _ _ hwf1 hmc hdc h).1

end MemCursor
namespace MemCursor

theorem scanFrom_ord (env : Env) :
    ∀ (fuel : Nat) (st : MState) (last : Entry), OrdInv st last →
      List.Chain' entryLe (scanFrom env fuel st).1 ∧
      ∀ e ∈ (scanFrom env fuel st).1, entryLe last e := by
  intro fuel
  induction fuel with
  | zero =>
    intro st last _
    exact ⟨List.chain'_nil, fun e he => absurd he (List.not_mem_nil e)⟩
  | succ n ih =>
    intro st last hinv
    rw [scanFrom]
    dsimp only
    rcases hR1 : (MNext env st).2.1 with _ | k
    · rcases hR2 : (MNext env st).2.2 with _ | v
      · exact ⟨List.chain'_nil, fun e he => absurd he (List.not_mem_nil e)⟩
      · exact ⟨List.chain'_nil, fun e he => absurd he (List.not_mem_nil e)⟩
    · rcases hR2 : (MNext env st).2.2 with _ | v
      · exact ⟨List.chain'_nil, fun e he => absurd he (List.not_mem_nil e)⟩
      · have h2 : (MNext env st).2 = (some k, some v) := Prod.ext hR1 hR2
        obtain ⟨hle, hinv2⟩ := MNext_ord env st last hinv h2
        obtain ⟨hch, hall⟩ := ih (MNext env st).1 (k, v) hinv2
        refine ⟨List.chain'_cons'.mpr ⟨fun y hy => hall y (List.mem_of_mem_head? hy), hch⟩, ?_⟩
        intro e he
        rcases List.mem_cons.mp he with rfl | he2
        · exact hle
        · exact entryLe_trans hle (hall e he2)

/-- C2: for every base and overlay store that are sorted in merge order
(non-decreasing keys, non-decreasing values within a key) with non-empty
keys, a scan of `First` followed by any number of `Next` calls yields a
sequence of entries that is monotonically non-decreasing: keys never
decrease, and within a run of equal keys the values never decrease. -/
theorem scan_ordered (env : Env) (db mem : List Entry)
    (hdb : List.Chain' entryLe db) (hmem : List.Chain' entryLe mem)
    (hdbk : keysNonempty db) (hmemk : keysNonempty mem) (fuel : Nat) :
    List.Pairwise entryLe (scan env fuel (initState db mem)).1 := by
  rw [scan]
  dsimp only
  rcases hR1 : (MFirst env (initState db mem)).2.1 with _ | k
  · rcases hR2 : (MFirst env (initState db mem)).2.2 with _ | v
    · exact List.Pairwise.nil
    · exact List.Pairwise.nil
  · rcases hR2 : (MFirst env (initState db mem)).2.2 with _ | v
    · exact List.Pairwise.nil
    · have h2 : (MFirst env (initState db mem)).2 = (some k, some v) := Prod.ext hR1 hR2
      have hinv : OrdInv (MFirst env (initState db mem)).1 (k, v) :=
        MFirst_ord env (initState db mem) ⟨hdb, hmem, hdbk, hmemk⟩ rfl h2
      obtain ⟨hch, hall⟩ := scanFrom_ord env fuel _ (k, v) hinv
      exact List.pairwise_cons.mpr ⟨hall, List.chain'_iff_pairwise.mp hch⟩

/-- Witness for C2 at a concrete input: sorted stores with duplicate keys
on both sides; the scan's output is pairwise non-decreasing. -/
theorem scan_ordered_witness :
    (List.Chain' entryLe [([1], [2]), ([1], [4]), ([3], [4])] ∧
      List.Chain' entryLe [([1], [3]), ([2], [5])] ∧
      keysNonempty [([1], [2]), ([1], [4]), ([3], [4])] ∧
      keysNonempty [([1], [3]), ([2], [5])]) ∧
    List.Pairwise entryLe
      (scan envPlain 6 (initState [([1], [2]), ([1], [4]), ([3], [4])]
        [([1], [3]), ([2], [5])])).1 :=
  ⟨⟨by simp [List.chain'_cons]; decide, by simp [List.chain'_cons]; decide,
      by simp [keysNonempty], by simp [keysNonempty]⟩,
    scan_ordered envPlain [([1], [2]), ([1], [4]), ([3], [4])] [([1], [3]), ([2], [5])]
      (by simp [List.chain'_cons]; decide) (by simp [List.chain'_cons]; decide)
      (by simp [keysNonempty]) (by simp [keysNonempty]) 6⟩

end MemCursor
namespace MemCursor

theorem bytes_le_lt_asymm {a b : Bytes} (hle : bytesLe a b) (hlt : bytesLt b a) : False :=
  hle (bytesLt_iff_gt_swap.mpr hlt)

theorem bytesLe_antisymm {a b : Bytes} (hab : bytesLe a b) (hba : bytesLe b a) : a = b := by
  rcases (bytesLe_iff a b).mp hab with h | h
  · exact absurd (bytesLt_iff_gt_swap.mpr h) hba
  · exact h

theorem bytesLt_of_le_of_lt {a b c : Bytes} (h1 : bytesLe a b) (h2 : bytesLt b c) :
    bytesLt a c := by
  rcases (bytesLe_iff a b).mp h1 with h | h
  · exact bytesLt_trans h h2
  · rw [h]; exact h2

theorem entryLt_irrefl (a : Entry) : ¬ entryLt a a := by
  intro h
  rcases h with h | ⟨-, h⟩
  · exact bytesLt_irrefl _ h
  · exact bytesLt_irrefl _ h

theorem entryLe_key {a b : Entry} (h : entryLe a b) : bytesLe a.1 b.1 := by
  rcases h with h | ⟨h, -⟩
  · exact (bytesLe_iff _ _).mpr (Or.inl h)
  · exact (bytesLe_iff _ _).mpr (Or.inr h)

theorem entryLt_key {a b : Entry} (h : entryLt a b) : bytesLe a.1 b.1 := by
  rcases h with h | ⟨h, -⟩
  · exact (bytesLe_iff _ _).mpr (Or.inl h)
  · exact (bytesLe_iff _ _).mpr (Or.inr h)

theorem entryLe_lt_asymm {a b : Entry} (h1 : entryLe a b) (h2 : entryLt b a) : False := by
  rcases h1 with h1 | ⟨he1, h1⟩
  · rcases h2 with h2 | ⟨he2, h2⟩
    · exact bytesLt_asymm h1 h2
    · rw [he2] at h1
      exact bytesLt_irrefl _ h1
  · rcases h2 with h2 | ⟨he2, h2⟩
    · rw [he1] at h2
      exact bytesLt_irrefl _ h2
    · exact bytes_le_lt_asymm h1 h2

theorem drop_eq_cons_getElem? {l : List Entry} {i : Nat} {a : Entry}
    (h : l[i]? = some a) : l.drop i = a :: l.drop (i + 1) := by
  have hlt : i < l.length := by
    by_contra hc
    rw [List.getElem?_eq_none (by omega)] at h
    exact absurd h (by simp)
  rw [List.drop_eq_getElem_cons hlt]
  rw [List.getElem?_eq_getElem hlt] at h
  rw [Option.some.inj h]

end MemCursor
namespace MemCursor

/-- Modelled from the spec: an entry survives the tombstones when its
effective key (the auto-dupsort conversion of its raw key) is not
deleted. -/
def liveEntry (env : Env) (e : Entry) : Bool :=
  !env.entryDeleted (convertAutoDupsort env e.1 e.2)

/-- Modelled from the spec: the overlay entry `m` replaces the base entry
`e` per the intersection-skip rules — Go-equal keys and, on a dup-sort
table, Go-equal values as well. -/
def replaces (env : Env) (m e : Entry) : Bool :=
  (m.1 == e.1) && (!env.dupSort || (m.2 == e.2))

/-- Modelled from the spec: the merged multiset of a full scan — the
overlay alone when the table is cleared, else the overlay plus the base
entries that survive the tombstones and are not replaced by an overlay
entry. -/
def specMergeMultiset (env : Env) (db mem : List Entry) : Multiset Entry :=
  if env.tableCleared then (mem : Multiset Entry)
  else (mem : Multiset Entry) +
    ((db.filter (liveEntry env)).filter
      (fun e => !(mem.any (fun m => replaces env m e))) : Multiset Entry)

/-- The base entries at or after position `r` that survive the tombstones
(raw keys, as `getNextOnDb` checks them on a non-auto-dupsort table). -/
def pendingDb (env : Env) (db : List Entry) (r : Nat) : List Entry :=
  (db.drop r).filter (fun e => !env.entryDeleted e.1)

/-- The base entries from `l` not replaced by any overlay entry in `ms`. -/
def unmatched (env : Env) (ms l : List Entry) : List Entry :=
  l.filter (fun e => !(ms.any (fun m => replaces env m e)))

theorem convertAutoDupsort_nonauto {env : Env} (h : env.autoDup = false)
    (k v : Bytes) : convertAutoDupsort env k v = k := by
  rcases hc : env.cfg with _ | c
  · unfold convertAutoDupsort
    rw [hc]
  · rw [autoDup_cfg_some hc] at h
    unfold convertAutoDupsort
    rw [hc]
    dsimp only
    rw [if_pos h]

theorem liveEntry_nonauto {env : Env} (h : env.autoDup = false) (e : Entry) :
    liveEntry env e = !env.entryDeleted e.1 := by
  rw [liveEntry, convertAutoDupsort_nonauto h]

theorem filter_liveEntry_nonauto {env : Env} (h : env.autoDup = false)
    (db : List Entry) :
    db.filter (liveEntry env) = db.filter (fun e => !env.entryDeleted e.1) :=
  List.filter_congr (fun e _ => liveEntry_nonauto h e)

theorem pendingDb_cons {env : Env} {db : List Entry} {q : Nat} {d : Entry}
    (hg : db[q]? = some d) (hl : env.entryDeleted d.1 = false) :
    pendingDb env db q = d :: pendingDb env db (q + 1) := by
  rw [pendingDb, drop_eq_cons_getElem? hg, List.filter_cons_of_pos (by simp [hl]), pendingDb]

theorem pendingDb_skip {env : Env} {db : List Entry} {q : Nat} {d : Entry}
    (hg : db[q]? = some d) (hl : env.entryDeleted d.1 = true) :
    pendingDb env db q = pendingDb env db (q + 1) := by
  rw [pendingDb, drop_eq_cons_getElem? hg, List.filter_cons_of_neg (by simp [hl]), pendingDb]

theorem pendingDb_nil {env : Env} {db : List Entry} {q : Nat}
    (hg : db[q]? = none) : pendingDb env db q = [] := by
  rw [pendingDb, List.drop_eq_nil_of_le (List.getElem?_eq_none_iff.mp hg)]
  rfl

theorem pendingDb_sublist (env : Env) (db : List Entry) (r : Nat) :
    List.Sublist (pendingDb env db r) db :=
  List.Sublist.trans (List.filter_sublist _) (List.drop_sublist r db)

theorem pendingDb_pairwise {R : Entry → Entry → Prop} {env : Env} {db : List Entry}
    {r : Nat} (h : List.Pairwise R db) : List.Pairwise R (pendingDb env db r) :=
  List.Pairwise.sublist (pendingDb_sublist env db r) h

theorem drop_pairwise {R : Entry → Entry → Prop} {l : List Entry} {i : Nat}
    (h : List.Pairwise R l) : List.Pairwise R (l.drop i) :=
  List.Pairwise.sublist (List.drop_sublist i l) h

theorem unmatched_cons_matched {env : Env} {ms l : List Entry} {e m : Entry}
    (hm : m ∈ ms) (hr : replaces env m e = true) :
    unmatched env ms (e :: l) = unmatched env ms l := by
  have hany : ms.any (fun m => replaces env m e) = true := List.any_eq_true.mpr ⟨m, hm, hr⟩
  rw [unmatched, List.filter_cons_of_neg (by simp [hany]), unmatched]

theorem unmatched_cons_unmatched {env : Env} {ms l : List Entry} {e : Entry}
    (h : ∀ m ∈ ms, replaces env m e = false) :
    unmatched env ms (e :: l) = e :: unmatched env ms l := by
  have hany : ms.any (fun m => replaces env m e) = false := by
    rw [List.any_eq_false]
    intro m hm
    simp [h m hm]
  rw [unmatched, List.filter_cons_of_pos (by simp [hany]), unmatched]

theorem unmatched_shrink {env : Env} {m : Entry} {ms l : List Entry}
    (h : ∀ e ∈ l, replaces env m e = false) :
    unmatched env (m :: ms) l = unmatched env ms l := by
  rw [unmatched, unmatched]
  refine List.filter_congr ?_
  intro e he
  simp [List.any_cons, h e he]

theorem coe_add_cons (l1 : List Entry) (a : Entry) (l2 : List Entry) :
    (l1 : Multiset Entry) + ((a :: l2 : List Entry) : Multiset Entry) =
      a ::ₘ ((l1 : Multiset Entry) + (l2 : Multiset Entry)) := by
  rw [← Multiset.cons_coe, Multiset.add_cons]

theorem coe_cons_add (a : Entry) (l1 l2 : List Entry) :
    ((a :: l1 : List Entry) : Multiset Entry) + (l2 : Multiset Entry) =
      a ::ₘ ((l1 : Multiset Entry) + (l2 : Multiset Entry)) := by
  rw [← Multiset.cons_coe, Multiset.cons_add]

end MemCursor
namespace MemCursor

theorem goEqual_some_none {a : Bytes} (h : a ≠ []) : goEqual (some a) none = false := by
  show (a == []) = false
  exact beq_eq_false_iff_ne.mpr h

theorem goEqual_none_some {a : Bytes} (h : a ≠ []) : goEqual none (some a) = false := by
  show (([] : Bytes) == a) = false
  exact beq_eq_false_iff_ne.mpr (fun he => h he.symm)

theorem prevCalc_none_some {d : Entry} (h : d.1 ≠ []) :
    prevFromDbCalc none none (some d.1) (some d.2) = true := by
  have hq := goEqual_none_some (a := d.1) h
  rw [prevFromDbCalc, if_neg (by simp [hq])]
  simp

theorem prevCalc_some_none {m : Entry} (h : m.1 ≠ []) :
    prevFromDbCalc (some m.1) (some m.2) none none = false := by
  have hq := goEqual_some_none (a := m.1) h
  rw [prevFromDbCalc, if_neg (by simp [hq])]
  simp

theorem skipIntersection_nonauto {env : Env} (hauto : env.autoDup = false)
    (m d : Entry) (t : NextType) (c : SubCursor) :
    skipIntersection env (some m.1) (some m.2) (some d.1) (some d.2) t c =
      if replaces env m d = true then getNextOnDb env t c
      else (c, some d.1, some d.2) := by
  have hoff : env.dupsortOffset = 0 := not_autoDup_dupsortOffset_zero hauto
  rw [skipIntersection]
  by_cases hk : (m.1 == d.1) = true
  · have hgk : goEqual (some m.1) (some d.1) = true := hk
    rw [if_pos hgk]
    by_cases hds : env.dupSort = false
    · rw [if_pos hds]
      have hres : replaces env m d = true := by simp [replaces, hk, hds]
      rw [if_pos hres]
    · have hds' : env.dupSort = true := by
        revert hds
        cases env.dupSort <;> simp
      rw [if_neg hds]
      by_cases hv : (m.2 == d.2) = true
      · have hgv : goEqual (some m.2) (some d.2) = true := hv
        rw [if_pos hgv]
        have hres : replaces env m d = true := by simp [replaces, hk, hv]
        rw [if_pos hres]
      · have hv' : (m.2 == d.2) = false := by
          revert hv
          cases (m.2 == d.2) <;> simp
        have hgv : goEqual (some m.2) (some d.2) = false := hv'
        rw [if_neg (by simp [hgv])]
        rw [if_neg (fun hc => hc.1 hoff)]
        have hres : replaces env m d = false := by simp [replaces, hds', hv']
        rw [if_neg (by simp [hres])]
  · have hk' : (m.1 == d.1) = false := by
      revert hk
      cases (m.1 == d.1) <;> simp
    have hgk : goEqual (some m.1) (some d.1) = false := hk'
    rw [if_neg (by simp [hgk])]
    have hres : replaces env m d = false := by simp [replaces, hk']
    rw [if_neg (by simp [hres])]

theorem getNextOnDbAux_pending (env : Env) (hauto : env.autoDup = false) :
    ∀ (fuel : Nat) (c : SubCursor), c.entries.length - c.pos < fuel →
      (getNextOnDbAux env .Normal fuel c).1.entries = c.entries ∧
      ((pendingDb env c.entries (c.pos + 1) = [] ∧
          (getNextOnDbAux env .Normal fuel c).2 = (none, none)) ∨
       (∃ d pd, pendingDb env c.entries (c.pos + 1) = d :: pd ∧
          (getNextOnDbAux env .Normal fuel c).2 = (some d.1, some d.2) ∧
          c.entries[(getNextOnDbAux env .Normal fuel c).1.pos]? = some d ∧
          env.entryDeleted d.1 = false ∧
          pendingDb env c.entries ((getNextOnDbAux env .Normal fuel c).1.pos + 1) = pd)) := by
  intro fuel
  induction fuel with
  | zero => intro c h; omega
  | succ n ih =>
    intro c hfuel
    have hstep : SubCursor.step .Normal c =
        ({ c with pos := c.pos + 1 }, c.read (c.pos + 1)) := rfl
    unfold getNextOnDbAux
    split
    · rename_i c' key value hs
      rw [hstep] at hs
      have hc' : ({ c with pos := c.pos + 1 } : SubCursor) = c' := congrArg Prod.fst hs
      have hread : c.read (c.pos + 1) = (some key, some value) := congrArg Prod.snd hs
      subst hc'
      rcases hg : c.entries[c.pos + 1]? with _ | e
      · rw [read_none hg] at hread
        simp at hread
      · rw [read_some hg] at hread
        simp only [Prod.mk.injEq, Option.some.injEq] at hread
        obtain ⟨rfl, rfl⟩ := hread
        have hlt : c.pos + 1 < c.entries.length := by
          by_contra hc
          rw [List.getElem?_eq_none (by omega)] at hg
          exact absurd hg (by simp)
        have hcv : convertAutoDupsort env e.1 e.2 = e.1 :=
          convertAutoDupsort_nonauto hauto e.1 e.2
        by_cases hd : env.entryDeleted e.1 = true
        · rw [if_pos (by rw [hcv]; exact hd)]
          obtain ⟨ihe, ihm⟩ := ih { c with pos := c.pos + 1 } (by simp; omega)
          have hpeq : pendingDb env c.entries (c.pos + 1) =
              pendingDb env c.entries (c.pos + 1 + 1) := pendingDb_skip hg hd
          refine ⟨ihe, ?_⟩
          rw [hpeq]
          exact ihm
        · have hd' : env.entryDeleted e.1 = false := by
            revert hd
            cases env.entryDeleted e.1 <;> simp
          rw [if_neg (by rw [hcv]; simp [hd'])]
          refine ⟨rfl, Or.inr ⟨e, pendingDb env c.entries (c.pos + 1 + 1),
            pendingDb_cons hg hd', rfl, hg, hd', rfl⟩⟩
    · rename_i r hne
      rcases hg : c.entries[c.pos + 1]? with _ | e
      · have hrd : SubCursor.step .Normal c = ({ c with pos := c.pos + 1 }, none, none) := by
          rw [hstep, read_none hg]
        rw [hrd]
        exact ⟨rfl, Or.inl ⟨pendingDb_nil hg, rfl⟩⟩
      · exact absurd (by rw [hstep, read_some hg]) (hne { c with pos := c.pos + 1 } e.1 e.2)

theorem getNextOnDb_pending (env : Env) (hauto : env.autoDup = false) (c : SubCursor) :
    (getNextOnDb env .Normal c).1.entries = c.entries ∧
    ((pendingDb env c.entries (c.pos + 1) = [] ∧
        (getNextOnDb env .Normal c).2 = (none, none)) ∨
     (∃ d pd, pendingDb env c.entries (c.pos + 1) = d :: pd ∧
        (getNextOnDb env .Normal c).2 = (some d.1, some d.2) ∧
        c.entries[(getNextOnDb env .Normal c).1.pos]? = some d ∧
        env.entryDeleted d.1 = false ∧
        pendingDb env c.entries ((getNextOnDb env .Normal c).1.pos + 1) = pd)) :=
  getNextOnDbAux_pending env hauto (c.entries.length + 1) c (by omega)

end MemCursor
namespace MemCursor

theorem unmatched_nil_matcher (env : Env) (l : List Entry) : unmatched env [] l = l := by
  simp [unmatched]

theorem replaces_key {env : Env} {m e : Entry} (h : replaces env m e = true) :
    m.1 = e.1 := by
  rw [replaces, Bool.and_eq_true] at h
  exact beq_iff_eq.mp h.1

theorem replaces_dup_eq {env : Env} {m e : Entry} (hds : env.dupSort = true)
    (h : replaces env m e = true) : m = e := by
  rw [replaces, Bool.and_eq_true, hds] at h
  obtain ⟨h1, h2⟩ := h
  simp only [Bool.not_true, Bool.false_or] at h2
  exact Prod.ext (beq_iff_eq.mp h1) (beq_iff_eq.mp h2)

theorem replaces_of_key_nondup {env : Env} {m e : Entry} (hds : env.dupSort = false)
    (h : m.1 = e.1) : replaces env m e = true := by
  rw [replaces, hds]
  simp [h]

theorem skipIntersection_nomatch {env : Env} {mk mv dk dv : Option Bytes}
    {t : NextType} {c : SubCursor} (h : goEqual mk dk = false) :
    skipIntersection env mk mv dk dv t c = (c, dk, dv) := by
  rw [skipIntersection, if_neg (by simp [h])]

/-- The scan-simulation invariant for the merge-equivalence claim: the
state's stores are `db` and `mem`, and the passive side's held lookahead is
the entry at that side's cursor position (or that side is exhausted). -/
def C1Inv (env : Env) (db mem : List Entry) (st : MState) : Prop :=
  st.cursor.entries = db ∧ st.memCursor.entries = mem ∧
  ((st.isPrevFromDb = true ∧
      ((st.currentMemEntry = CursorEntry.empty ∧ mem.length ≤ st.memCursor.pos) ∨
        (∃ m, st.currentMemEntry = ⟨some m.1, some m.2⟩ ∧
          mem[st.memCursor.pos]? = some m))) ∨
   (st.isPrevFromDb = false ∧
      (st.currentDbEntry = CursorEntry.empty ∨
        (∃ d, st.currentDbEntry = ⟨some d.1, some d.2⟩ ∧
          db[st.cursor.pos]? = some d ∧ env.entryDeleted d.1 = false))))

/-- The multiset still to be yielded from a mid-scan state: the unvisited
overlay suffix plus the pending live base entries it does not replace. -/
def C1Rem (env : Env) (db mem : List Entry) (st : MState) : Multiset Entry :=
  if st.isPrevFromDb then
    ((mem.drop st.memCursor.pos : List Entry) : Multiset Entry) +
      ((unmatched env (mem.drop st.memCursor.pos)
        (pendingDb env db (st.cursor.pos + 1)) : List Entry) : Multiset Entry)
  else
    ((mem.drop (st.memCursor.pos + 1) : List Entry) : Multiset Entry) +
      ((unmatched env (mem.drop (st.memCursor.pos + 1))
        (if st.currentDbEntry = CursorEntry.empty then []
         else pendingDb env db st.cursor.pos) : List Entry) : Multiset Entry)

end MemCursor
namespace MemCursor

theorem mem_of_getElem?_entry {l : List Entry} {i : Nat} {a : Entry}
    (h : l[i]? = some a) : a ∈ l := by
  have hlt : i < l.length := by
    by_contra hc
    rw [List.getElem?_eq_none (by omega)] at h
    exact absurd h (by simp)
  rw [List.getElem?_eq_getElem hlt] at h
  rw [← Option.some.inj h]
  exact List.getElem_mem hlt

theorem goForward_C1 (env : Env) (db mem : List Entry)
    (hauto : env.autoDup = false)
    (hdb : List.Pairwise entryLt db) (hmem : List.Pairwise entryLt mem)
    (hdbk : keysNonempty db) (hmemk : keysNonempty mem)
    (hnd : env.dupSort = false → List.Pairwise (fun a b : Entry => bytesLt a.1 b.1) db)
    (st1 : MState) (mk mv dk dv : Option Bytes) (L : List Entry)
    (he1 : st1.cursor.entries = db) (he2 : st1.memCursor.entries = mem)
    (hmc : (mk = none ∧ mv = none ∧ mem.length ≤ st1.memCursor.pos) ∨
      (∃ m, mk = some m.1 ∧ mv = some m.2 ∧ mem[st1.memCursor.pos]? = some m))
    (hdc : (dk = none ∧ dv = none ∧ L = []) ∨
      (∃ d, dk = some d.1 ∧ dv = some d.2 ∧ db[st1.cursor.pos]? = some d ∧
        env.entryDeleted d.1 = false ∧ L = pendingDb env db st1.cursor.pos)) :
    ((goForward env st1 mk mv dk dv .Normal).2 = (none, none) ∧
      mem.length ≤ st1.memCursor.pos ∧ L = []) ∨
    (∃ y : Entry, (goForward env st1 mk mv dk dv .Normal).2 = (some y.1, some y.2) ∧
      C1Inv env db mem (goForward env st1 mk mv dk dv .Normal).1 ∧
      ((mem.drop st1.memCursor.pos : List Entry) : Multiset Entry) +
        ((unmatched env (mem.drop st1.memCursor.pos) L : List Entry) : Multiset Entry) =
        y ::ₘ C1Rem env db mem (goForward env st1 mk mv dk dv .Normal).1) := by
  rcases hmc with ⟨rfl, rfl, hmlen⟩ | ⟨m, rfl, rfl, hmg⟩
  · rcases hdc with ⟨rfl, rfl, rfl⟩ | ⟨d, rfl, rfl, hdg, hdl, rfl⟩
    · left
      refine ⟨?_, hmlen, rfl⟩
      rw [goForward, if_pos ⟨rfl, rfl⟩]
    · -- overlay exhausted, base candidate present: the base side yields
      right
      have hdm : d ∈ db := mem_of_getElem?_entry hdg
      have hkne : d.1 ≠ [] := hdbk d hdm
      have hnb : ¬((none : Option Bytes) = none ∧ (some d.2 : Option Bytes) = none) := by
        simp
      rw [goForward_eq env st1 none none (some d.1) (some d.2) .Normal hnb]
      rw [skipIntersection_nomatch (goEqual_none_some hkne)]
      dsimp only
      rw [prevCalc_none_some hkne]
      rw [if_pos rfl, if_neg (by simp)]
      refine ⟨d, rfl, ?_, ?_⟩
      · refine ⟨he1, he2, Or.inl ⟨rfl, ?_⟩⟩
        exact Or.inl ⟨rfl, hmlen⟩
      · have hdrop : mem.drop st1.memCursor.pos = [] :=
          List.drop_eq_nil_of_le hmlen
        rw [C1Rem]
        dsimp only
        rw [if_pos rfl, hdrop, unmatched_nil_matcher, unmatched_nil_matcher]
        rw [pendingDb_cons hdg hdl]
        rw [← Multiset.cons_coe]
        simp
  · rcases hdc with ⟨rfl, rfl, rfl⟩ | ⟨d, rfl, rfl, hdg, hdl, rfl⟩
    · -- base exhausted, overlay candidate present: the overlay side yields
      right
      have hmm : m ∈ mem := mem_of_getElem?_entry hmg
      have hkne : m.1 ≠ [] := hmemk m hmm
      have hnb : ¬((some m.2 : Option Bytes) = none ∧ (none : Option Bytes) = none) := by
        simp
      rw [goForward_eq env st1 (some m.1) (some m.2) none none .Normal hnb]
      rw [skipIntersection_nomatch (goEqual_some_none hkne)]
      dsimp only
      rw [prevCalc_some_none hkne]
      rw [if_neg (by simp), if_pos rfl, if_neg (by simp)]
      refine ⟨m, rfl, ?_, ?_⟩
      · exact ⟨he1, he2, Or.inr ⟨rfl, Or.inl rfl⟩⟩
      · rw [C1Rem]
        dsimp only
        rw [if_neg (by simp), if_pos rfl]
        rw [drop_eq_cons_getElem? hmg]
        rw [coe_cons_add]
        rfl
    · -- both candidates present
      have hdm : d ∈ db := mem_of_getElem?_entry hdg
      have hmm : m ∈ mem := mem_of_getElem?_entry hmg
      have hnb : ¬((some m.2 : Option Bytes) = none ∧ (some d.2 : Option Bytes) = none) := by
        simp
      have hLcons : pendingDb env db st1.cursor.pos =
          d :: pendingDb env db (st1.cursor.pos + 1) := pendingDb_cons hdg hdl
      have hdropm : mem.drop st1.memCursor.pos =
          m :: mem.drop (st1.memCursor.pos + 1) := drop_eq_cons_getElem? hmg
      have hmemdrop : List.Pairwise entryLt (mem.drop st1.memCursor.pos) :=
        drop_pairwise hmem
      rw [hdropm] at hmemdrop
      have hmlt : ∀ m' ∈ mem.drop (st1.memCursor.pos + 1), entryLt m m' :=
        (List.pairwise_cons.mp hmemdrop).1
      have hpw : List.Pairwise entryLt (pendingDb env db st1.cursor.pos) :=
        pendingDb_pairwise hdb
      rw [hLcons] at hpw
      have hdlt : ∀ e ∈ pendingDb env db (st1.cursor.pos + 1), entryLt d e :=
        (List.pairwise_cons.mp hpw).1
      rw [goForward_eq env st1 (some m.1) (some m.2) (some d.1) (some d.2) .Normal hnb]
      rw [skipIntersection_nonauto hauto m d .Normal st1.cursor]
      by_cases hcol : replaces env m d = true
      · rw [if_pos hcol]
        obtain ⟨hge, hpend⟩ := getNextOnDb_pending env hauto st1.cursor
        rw [he1] at hge hpend
        rcases hpend with ⟨hp0, hres⟩ | ⟨d2, pd2, hp0, hres, hg2, hl2, hp2⟩
        · -- base exhausted after the skip: overlay yields
          rw [hres]
          dsimp only
          rw [prevCalc_some_none (hmemk m hmm)]
          rw [if_neg (show ¬((false : Bool) = true) by simp)]
          rw [if_pos (show (none : Option Bytes) = none from rfl)]
          rw [if_neg (show ¬((some m.2 : Option Bytes) = none) by simp)]
          refine Or.inr ⟨m, rfl, ?_, ?_⟩
          · exact ⟨hge, he2, Or.inr ⟨rfl, Or.inl rfl⟩⟩
          · rw [C1Rem]
            dsimp only
            rw [if_neg (show ¬((false : Bool) = true) by simp)]
            rw [if_pos (show (CursorEntry.empty = CursorEntry.empty) from rfl)]
            rw [hLcons, hp0]
            rw [unmatched_cons_matched (hdropm ▸ List.mem_cons_self m _) hcol]
            rw [hdropm, coe_cons_add]
            rfl
        · -- a further base candidate after the skip
          rw [hres]
          dsimp only
          by_cases hprev : prevFromDbCalc (some m.1) (some m.2) (some d2.1) (some d2.2) = true
          · exfalso
            have hle : entryLe d2 m := prevCalc_true_le hprev
            have hd2lt : entryLt d d2 :=
              hdlt d2 (by rw [hp0]; exact List.mem_cons_self d2 pd2)
            by_cases hds : env.dupSort = true
            · have hmd : m = d := replaces_dup_eq hds hcol
              rw [hmd] at hle
              exact entryLe_lt_asymm hle hd2lt
            · have hds' : env.dupSort = false := by
                revert hds
                cases env.dupSort <;> simp
              have hkey : m.1 = d.1 := replaces_key hcol
              have hknd : List.Pairwise (fun a b : Entry => bytesLt a.1 b.1)
                  (pendingDb env db st1.cursor.pos) := pendingDb_pairwise (hnd hds')
              rw [hLcons] at hknd
              have hkdd2 : bytesLt d.1 d2.1 := (List.pairwise_cons.mp hknd).1 d2
                (by rw [hp0]; exact List.mem_cons_self d2 pd2)
              have hk2 : bytesLe d2.1 m.1 := entryLe_key hle
              rw [hkey] at hk2
              exact bytes_le_lt_asymm hk2 hkdd2
          · have hprev' : prevFromDbCalc (some m.1) (some m.2) (some d2.1) (some d2.2) = false := by
              revert hprev
              cases prevFromDbCalc (some m.1) (some m.2) (some d2.1) (some d2.2) <;> simp
            rw [hprev']
            rw [if_neg (show ¬((false : Bool) = true) by simp)]
            rw [if_neg (show ¬((some d2.2 : Option Bytes) = none) by simp)]
            rw [if_neg (show ¬((some m.2 : Option Bytes) = none) by simp)]
            have hshr : ∀ e ∈ d2 :: pd2, replaces env m e = false := by
              intro e he
              by_contra hc
              have hc' : replaces env m e = true := by
                revert hc
                cases replaces env m e <;> simp
              have helt : entryLt d e := hdlt e (by rw [hp0]; exact he)
              by_cases hds : env.dupSort = true
              · have hmd : m = d := replaces_dup_eq hds hcol
                have hme : m = e := replaces_dup_eq hds hc'
                rw [← hme, ← hmd] at helt
                exact entryLt_irrefl m helt
              · have hds' : env.dupSort = false := by
                  revert hds
                  cases env.dupSort <;> simp
                have hkey : m.1 = d.1 := replaces_key hcol
                have hkeye : m.1 = e.1 := replaces_key hc'
                have hknd : List.Pairwise (fun a b : Entry => bytesLt a.1 b.1)
                    (pendingDb env db st1.cursor.pos) := pendingDb_pairwise (hnd hds')
                rw [hLcons] at hknd
                have hkde : bytesLt d.1 e.1 := (List.pairwise_cons.mp hknd).1 e
                  (by rw [hp0]; exact he)
                rw [← hkeye, hkey] at hkde
                exact bytesLt_irrefl _ hkde
            refine Or.inr ⟨m, rfl, ?_, ?_⟩
            · exact ⟨hge, he2, Or.inr ⟨rfl, Or.inr ⟨d2, rfl, hg2, hl2⟩⟩⟩
            · rw [C1Rem]
              dsimp only
              rw [if_neg (show ¬((false : Bool) = true) by simp)]
              rw [if_neg (show ¬((CursorEntry.mk (some d2.1) (some d2.2)) = CursorEntry.empty)
                by simp [CursorEntry.empty])]
              rw [pendingDb_cons hg2 hl2, hp2]
              rw [hLcons, hp0]
              rw [unmatched_cons_matched (hdropm ▸ List.mem_cons_self m _) hcol]
              rw [hdropm]
              rw [unmatched_shrink hshr]
              rw [coe_cons_add]
      · have hcol' : replaces env m d = false := by
          revert hcol
          cases replaces env m d <;> simp
        rw [if_neg (by simp [hcol'])]
        dsimp only
        by_cases hprev : prevFromDbCalc (some m.1) (some m.2) (some d.1) (some d.2) = true
        · -- base side yields its candidate, the overlay entry stays held
          rw [hprev]
          rw [if_pos (show (true : Bool) = true from rfl)]
          rw [if_neg (show ¬((some d.2 : Option Bytes) = none) by simp)]
          rw [if_neg (show ¬((some m.2 : Option Bytes) = none) by simp)]
          have hled : entryLe d m := prevCalc_true_le hprev
          have hdun : ∀ m' ∈ mem.drop st1.memCursor.pos, replaces env m' d = false := by
            intro m' hm'
            rw [hdropm] at hm'
            rcases List.mem_cons.mp hm' with rfl | hm2
            · exact hcol'
            · by_contra hc
              have hc' : replaces env m' d = true := by
                revert hc
                cases replaces env m' d <;> simp
              have hmm' : entryLt m m' := hmlt m' hm2
              by_cases hds : env.dupSort = true
              · have hmd : m' = d := replaces_dup_eq hds hc'
                rw [hmd] at hmm'
                exact entryLe_lt_asymm hled hmm'
              · have hds' : env.dupSort = false := by
                  revert hds
                  cases env.dupSort <;> simp
                have hkey' : m'.1 = d.1 := replaces_key hc'
                have h1 : bytesLe d.1 m.1 := entryLe_key hled
                have h2 : bytesLe m.1 m'.1 := entryLt_key hmm'
                rw [hkey'] at h2
                have hk : m.1 = d.1 := bytesLe_antisymm h2 h1
                exact absurd (replaces_of_key_nondup hds' hk) (by simp [hcol'])
          refine Or.inr ⟨d, rfl, ?_, ?_⟩
          · exact ⟨he1, he2, Or.inl ⟨rfl, Or.inr ⟨m, rfl, hmg⟩⟩⟩
          · rw [C1Rem]
            dsimp only
            rw [if_pos (show (true : Bool) = true from rfl)]
            rw [hLcons]
            rw [unmatched_cons_unmatched hdun]
            rw [coe_add_cons]
        · -- overlay side yields, the base candidate stays held
          have hprev' : prevFromDbCalc (some m.1) (some m.2) (some d.1) (some d.2) = false := by
            revert hprev
            cases prevFromDbCalc (some m.1) (some m.2) (some d.1) (some d.2) <;> simp
          rw [hprev']
          rw [if_neg (show ¬((false : Bool) = true) by simp)]
          rw [if_neg (show ¬((some d.2 : Option Bytes) = none) by simp)]
          rw [if_neg (show ¬((some m.2 : Option Bytes) = none) by simp)]
          have hmled : entryLe m d := prevCalc_false_le hprev'
          have hshr : ∀ e ∈ pendingDb env db st1.cursor.pos, replaces env m e = false := by
            intro e he
            rw [hLcons] at he
            rcases List.mem_cons.mp he with rfl | he2
            · exact hcol'
            · by_contra hc
              have hc' : replaces env m e = true := by
                revert hc
                cases replaces env m e <;> simp
              have hdee : entryLt d e := hdlt e he2
              by_cases hds : env.dupSort = true
              · have hme : m = e := replaces_dup_eq hds hc'
                rw [← hme] at hdee
                exact entryLe_lt_asymm hmled hdee
              · have hds' : env.dupSort = false := by
                  revert hds
                  cases env.dupSort <;> simp
                have hkeye : m.1 = e.1 := replaces_key hc'
                have h1 : bytesLe m.1 d.1 := entryLe_key hmled
                have hknd : List.Pairwise (fun a b : Entry => bytesLt a.1 b.1)
                    (pendingDb env db st1.cursor.pos) := pendingDb_pairwise (hnd hds')
                rw [hLcons] at hknd
                have hkde : bytesLt d.1 e.1 := (List.pairwise_cons.mp hknd).1 e he2
                rw [← hkeye] at hkde
                exact bytes_le_lt_asymm h1 hkde
          refine Or.inr ⟨m, rfl, ?_, ?_⟩
          · exact ⟨he1, he2, Or.inr ⟨rfl, Or.inr ⟨d, rfl, hdg, hdl⟩⟩⟩
          · rw [C1Rem]
            dsimp only
            rw [if_neg (show ¬((false : Bool) = true) by simp)]
            rw [if_neg (show ¬((CursorEntry.mk (some d.1) (some d.2)) = CursorEntry.empty)
              by simp [CursorEntry.empty])]
            rw [hdropm]
            rw [unmatched_shrink hshr]
            rw [coe_cons_add]

end MemCursor
namespace MemCursor

theorem MNext_C1 (env : Env) (db mem : List Entry)
    (hauto : env.autoDup = false)
    (hdb : List.Pairwise entryLt db) (hmem : List.Pairwise entryLt mem)
    (hdbk : keysNonempty db) (hmemk : keysNonempty mem)
    (hnd : env.dupSort = false → List.Pairwise (fun a b : Entry => bytesLt a.1 b.1) db)
    (st : MState) (hinv : C1Inv env db mem st) :
    ((MNext env st).2 = (none, none) ∧ C1Rem env db mem st = 0) ∨
    (∃ y : Entry, (MNext env st).2 = (some y.1, some y.2) ∧
      C1Inv env db mem (MNext env st).1 ∧
      C1Rem env db mem st = y ::ₘ C1Rem env db mem (MNext env st).1) := by
  obtain ⟨hce, hme, hside⟩ := hinv
  rcases hside with ⟨hptrue, hheld⟩ | ⟨hpfalse, hheld⟩
  · -- previous yield came from the base side
    rw [MNext, if_pos hptrue]
    dsimp only
    rw [C1Rem, if_pos hptrue]
    obtain ⟨hge, hpend⟩ := getNextOnDb_pending env hauto st.cursor
    rw [hce] at hge hpend
    have hmc0 : (st.currentMemEntry.key = none ∧ st.currentMemEntry.value = none ∧
        mem.length ≤ st.memCursor.pos) ∨
        (∃ m, st.currentMemEntry.key = some m.1 ∧ st.currentMemEntry.value = some m.2 ∧
          mem[st.memCursor.pos]? = some m) := by
      rcases hheld with ⟨heq, hlen⟩ | ⟨m, heq, hmg⟩
      · exact Or.inl ⟨by rw [heq]; rfl, by rw [heq]; rfl, hlen⟩
      · exact Or.inr ⟨m, by rw [heq], by rw [heq], hmg⟩
    rcases hpend with ⟨hp0, hres⟩ | ⟨d2, pd2, hp0, hres, hg2, hl2, hp2⟩
    · have h1 : (getNextOnDb env .Normal st.cursor).2.1 = none := by rw [hres]
      have h2 : (getNextOnDb env .Normal st.cursor).2.2 = none := by rw [hres]
      rw [h1, h2]
      rcases goForward_C1 env db mem hauto hdb hmem hdbk hmemk hnd
          { st with cursor := (getNextOnDb env .Normal st.cursor).1 }
          st.currentMemEntry.key st.currentMemEntry.value none none
          (pendingDb env db (st.cursor.pos + 1)) hge hme hmc0
          (Or.inl ⟨rfl, rfl, hp0⟩) with ⟨hn, hlen, hL⟩ | ⟨y, hy, hinv2, hacc⟩
      · left
        refine ⟨hn, ?_⟩
        rw [List.drop_eq_nil_of_le hlen, hL]
        rfl
      · exact Or.inr ⟨y, hy, hinv2, hacc⟩
    · have h1 : (getNextOnDb env .Normal st.cursor).2.1 = some d2.1 := by rw [hres]
      have h2 : (getNextOnDb env .Normal st.cursor).2.2 = some d2.2 := by rw [hres]
      rw [h1, h2]
      have hLfix : pendingDb env db (st.cursor.pos + 1) =
          pendingDb env db ({ st with
            cursor := (getNextOnDb env .Normal st.cursor).1 } : MState).cursor.pos := by
        rw [hp0]
        show _ = pendingDb env db (getNextOnDb env .Normal st.cursor).1.pos
        rw [pendingDb_cons hg2 hl2, hp2]
      rcases goForward_C1 env db mem hauto hdb hmem hdbk hmemk hnd
          { st with cursor := (getNextOnDb env .Normal st.cursor).1 }
          st.currentMemEntry.key st.currentMemEntry.value (some d2.1) (some d2.2)
          (pendingDb env db (st.cursor.pos + 1)) hge hme hmc0
          (Or.inr ⟨d2, rfl, rfl, hg2, hl2, hLfix⟩) with ⟨hn, hlen, hL⟩ | ⟨y, hy, hinv2, hacc⟩
      · left
        refine ⟨hn, ?_⟩
        rw [List.drop_eq_nil_of_le hlen, hL]
        rfl
      · exact Or.inr ⟨y, hy, hinv2, hacc⟩
  · -- previous yield came from the overlay side
    rw [MNext, if_neg (by simp [hpfalse])]
    dsimp only
    rw [C1Rem, if_neg (by simp [hpfalse])]
    have hnext : st.memCursor.next =
        ({ st.memCursor with pos := st.memCursor.pos + 1 },
          st.memCursor.read (st.memCursor.pos + 1)) := rfl
    rw [hnext]
    dsimp only
    rcases hgm : st.memCursor.entries[st.memCursor.pos + 1]? with _ | m
    · -- overlay exhausted at the next position
      rw [read_none hgm]
      dsimp only
      rw [hme] at hgm
      have hmlen : mem.length ≤ st.memCursor.pos + 1 := List.getElem?_eq_none_iff.mp hgm
      rcases hheld with hdbe | ⟨dh, heqd, hdg, hdl⟩
      · -- base side exhausted as well: null result
        left
        rw [hdbe]
        dsimp only [CursorEntry.empty]
        constructor
        · rw [goForward, if_pos ⟨rfl, rfl⟩]
        · rw [if_pos rfl, List.drop_eq_nil_of_le hmlen]
          rfl
      · -- base candidate held: the base side yields it
        rw [heqd]
        dsimp only
        rcases goForward_C1 env db mem hauto hdb hmem hdbk hmemk hnd
            { st with memCursor := { st.memCursor with pos := st.memCursor.pos + 1 } }
            none none (some dh.1) (some dh.2)
            (pendingDb env db st.cursor.pos) hce hme
            (Or.inl ⟨rfl, rfl, hmlen⟩)
            (Or.inr ⟨dh, rfl, rfl, hdg, hdl, rfl⟩) with ⟨hn, hlen, hL⟩ | ⟨y, hy, hinv2, hacc⟩
        · left
          refine ⟨hn, ?_⟩
          rw [if_neg (by simp [CursorEntry.empty]), hL, List.drop_eq_nil_of_le hmlen]
          rfl
        · right
          refine ⟨y, hy, hinv2, ?_⟩
          rw [if_neg (by simp [CursorEntry.empty])]
          exact hacc
    · -- a further overlay candidate
      rw [read_some hgm]
      dsimp only
      rw [hme] at hgm
      have hmlt : st.memCursor.pos + 1 < mem.length := by
        by_contra hc
        rw [List.getElem?_eq_none (by omega)] at hgm
        exact absurd hgm (by simp)
      rcases hheld with hdbe | ⟨dh, heqd, hdg, hdl⟩
      · -- base side exhausted: the overlay yields
        rw [hdbe]
        dsimp only [CursorEntry.empty]
        rcases goForward_C1 env db mem hauto hdb hmem hdbk hmemk hnd
            { st with memCursor := { st.memCursor with pos := st.memCursor.pos + 1 } }
            (some m.1) (some m.2) none none
            ([] : List Entry) hce hme
            (Or.inr ⟨m, rfl, rfl, hgm⟩)
            (Or.inl ⟨rfl, rfl, rfl⟩) with ⟨hn, hlen, hL⟩ | ⟨y, hy, hinv2, hacc⟩
        · exfalso
          have hlen2 : mem.length ≤ st.memCursor.pos + 1 := hlen
          omega
        · right
          refine ⟨y, hy, hinv2, ?_⟩
          rw [if_pos rfl]
          exact hacc
      · -- both sides have candidates
        rw [heqd]
        dsimp only
        rcases goForward_C1 env db mem hauto hdb hmem hdbk hmemk hnd
            { st with memCursor := { st.memCursor with pos := st.memCursor.pos + 1 } }
            (some m.1) (some m.2) (some dh.1) (some dh.2)
            (pendingDb env db st.cursor.pos) hce hme
            (Or.inr ⟨m, rfl, rfl, hgm⟩)
            (Or.inr ⟨dh, rfl, rfl, hdg, hdl, rfl⟩) with ⟨hn, hlen, hL⟩ | ⟨y, hy, hinv2, hacc⟩
        · exfalso
          have hlen2 : mem.length ≤ st.memCursor.pos + 1 := hlen
          omega
        · right
          refine ⟨y, hy, hinv2, ?_⟩
          rw [if_neg (by simp [CursorEntry.empty])]
          exact hacc

end MemCursor
namespace MemCursor

theorem scanFrom_C1 (env : Env) (db mem : List Entry)
    (hauto : env.autoDup = false)
    (hdb : List.Pairwise entryLt db) (hmem : List.Pairwise entryLt mem)
    (hdbk : keysNonempty db) (hmemk : keysNonempty mem)
    (hnd : env.dupSort = false → List.Pairwise (fun a b : Entry => bytesLt a.1 b.1) db) :
    ∀ (fuel : Nat) (st : MState), C1Inv env db mem st →
      Multiset.card (C1Rem env db mem st) < fuel →
      (scanFrom env fuel st).2 = true ∧
      ((scanFrom env fuel st).1 : Multiset Entry) = C1Rem env db mem st := by
  intro fuel
  induction fuel with
  | zero =>
    intro st hinv hcard
    exact absurd hcard (by omega)
  | succ n ih =>
    intro st hinv hcard
    rw [scanFrom]
    dsimp only
    rcases MNext_C1 env db mem hauto hdb hmem hdbk hmemk hnd st hinv with
      ⟨hn, hrem⟩ | ⟨y, hy, hinv2, hacc⟩
    · have h1 : (MNext env st).2.1 = none := by rw [hn]
      have h2 : (MNext env st).2.2 = none := by rw [hn]
      rw [h1, h2]
      refine ⟨rfl, ?_⟩
      rw [hrem]
      rfl
    · have h1 : (MNext env st).2.1 = some y.1 := by rw [hy]
      have h2 : (MNext env st).2.2 = some y.2 := by rw [hy]
      rw [h1, h2]
      dsimp only
      obtain ⟨ht, hlist⟩ := ih (MNext env st).1 hinv2 (by
        have hc := congrArg Multiset.card hacc
        rw [Multiset.card_cons] at hc
        omega)
      refine ⟨ht, ?_⟩
      rw [← Multiset.cons_coe, hlist, hacc]

end MemCursor
namespace MemCursor

theorem specMergeMultiset_start (env : Env) (hauto : env.autoDup = false)
    (hcl : ¬ env.tableCleared = true) (db mem : List Entry) :
    specMergeMultiset env db mem =
      ((mem : List Entry) : Multiset Entry) +
        ((unmatched env mem (pendingDb env db 0) : List Entry) : Multiset Entry) := by
  have h : (db.filter (liveEntry env)).filter
      (fun e => !(mem.any (fun m => replaces env m e))) =
      unmatched env mem (pendingDb env db 0) := by
    rw [unmatched, pendingDb, List.drop_zero, filter_liveEntry_nonauto hauto]
  rw [specMergeMultiset, if_neg hcl, h]

theorem MFirst_C1 (env : Env) (db mem : List Entry)
    (hauto : env.autoDup = false)
    (hdb : List.Pairwise entryLt db) (hmem : List.Pairwise entryLt mem)
    (hdbk : keysNonempty db) (hmemk : keysNonempty mem)
    (hnd : env.dupSort = false → List.Pairwise (fun a b : Entry => bytesLt a.1 b.1) db) :
    ((MFirst env (initState db mem)).2 = (none, none) ∧
      specMergeMultiset env db mem = 0) ∨
    (∃ y : Entry, (MFirst env (initState db mem)).2 = (some y.1, some y.2) ∧
      C1Inv env db mem (MFirst env (initState db mem)).1 ∧
      specMergeMultiset env db mem =
        y ::ₘ C1Rem env db mem (MFirst env (initState db mem)).1) := by
  rw [MFirst]
  dsimp only [initState, SubCursor.first]
  by_cases hcl : env.tableCleared = true
  · rw [if_pos hcl]
    rcases hg0 : mem[0]? with _ | m0
    · have hrd : SubCursor.read ⟨mem, 0⟩ 0 = (none, none) := read_none hg0
      rw [hrd]
      have hmemnil : mem = [] :=
        List.eq_nil_of_length_eq_zero (Nat.le_zero.mp (List.getElem?_eq_none_iff.mp hg0))
      left
      refine ⟨rfl, ?_⟩
      rw [specMergeMultiset, if_pos hcl, hmemnil]
      rfl
    · have hrd : SubCursor.read ⟨mem, 0⟩ 0 = (some m0.1, some m0.2) := read_some hg0
      rw [hrd]
      have hsplit : mem = m0 :: mem.drop 1 := by
        have h := drop_eq_cons_getElem? (i := 0) hg0
        rwa [List.drop_zero] at h
      right
      refine ⟨m0, rfl, ⟨rfl, rfl, Or.inr ⟨rfl, Or.inl rfl⟩⟩, ?_⟩
      rw [C1Rem]
      dsimp only
      rw [if_neg (by simp), if_pos rfl]
      rw [specMergeMultiset, if_pos hcl]
      nth_rewrite 1 [hsplit]
      rw [← Multiset.cons_coe]
      simp [unmatched]
  · rw [if_neg hcl]
    rcases hgd : db[0]? with _ | e0
    · have hrdd : SubCursor.read ⟨db, 0⟩ 0 = (none, none) := read_none hgd
      rw [hrdd]
      dsimp only
      rw [if_neg (by simp)]
      dsimp only
      have hdbnil : db = [] :=
        List.eq_nil_of_length_eq_zero (Nat.le_zero.mp (List.getElem?_eq_none_iff.mp hgd))
      have hpd0 : pendingDb env db 0 = [] := pendingDb_nil hgd
      rcases hg0 : mem[0]? with _ | m0
      · have hrd : SubCursor.read ⟨mem, 0⟩ 0 = (none, none) := read_none hg0
        rw [hrd]
        dsimp only
        have hmemnil : mem = [] :=
          List.eq_nil_of_length_eq_zero (Nat.le_zero.mp (List.getElem?_eq_none_iff.mp hg0))
        left
        constructor
        · rw [goForward, if_pos ⟨rfl, rfl⟩]
        · rw [specMergeMultiset_start env hauto hcl db mem, hmemnil, hpd0]
          rfl
      · have hrd : SubCursor.read ⟨mem, 0⟩ 0 = (some m0.1, some m0.2) := read_some hg0
        rw [hrd]
        dsimp only
        rcases goForward_C1 env db mem hauto hdb hmem hdbk hmemk hnd
            { cursor := ⟨db, 0⟩, memCursor := ⟨mem, 0⟩, isPrevFromDb := false,
              currentDbEntry := CursorEntry.empty, currentMemEntry := CursorEntry.empty }
            (some m0.1) (some m0.2) none none
            (pendingDb env db 0) rfl rfl
            (Or.inr ⟨m0, rfl, rfl, hg0⟩)
            (Or.inl ⟨rfl, rfl, hpd0⟩) with ⟨hn, hlen, hL⟩ | ⟨y, hy, hinv2, hacc⟩
        · exfalso
          have hlen2 : mem.length ≤ 0 := hlen
          have hlt : 0 < mem.length := by
            by_contra hc
            rw [List.getElem?_eq_none (by omega)] at hg0
            exact absurd hg0 (by simp)
          omega
        · refine Or.inr ⟨y, hy, hinv2, ?_⟩
          dsimp only at hacc
          rw [List.drop_zero] at hacc
          rw [specMergeMultiset_start env hauto hcl db mem]
          exact hacc
    · have hrdd : SubCursor.read ⟨db, 0⟩ 0 = (some e0.1, some e0.2) := read_some hgd
      rw [hrdd]
      dsimp only [goBytes]
      by_cases hdel : env.entryDeleted e0.1 = true
      · rw [if_pos ⟨by simp, hdel⟩]
        obtain ⟨hge, hpend⟩ := getNextOnDb_pending env hauto ⟨db, 0⟩
        dsimp only at hge hpend
        have hskip0 : pendingDb env db 0 = pendingDb env db (0 + 1) := pendingDb_skip hgd hdel
        rcases hpend with ⟨hp0, hres⟩ | ⟨d2, pd2, hp0, hres, hg2, hl2, hp2⟩
        · have h1 : (getNextOnDb env .Normal ⟨db, 0⟩).2.1 = none := by rw [hres]
          have h2 : (getNextOnDb env .Normal ⟨db, 0⟩).2.2 = none := by rw [hres]
          rw [h1, h2]
          have hpd0 : pendingDb env db 0 = [] := by rw [hskip0, hp0]
          rcases hg0 : mem[0]? with _ | m0
          · have hrd : SubCursor.read ⟨mem, 0⟩ 0 = (none, none) := read_none hg0
            rw [hrd]
            dsimp only
            have hmemnil : mem = [] :=
              List.eq_nil_of_length_eq_zero (Nat.le_zero.mp (List.getElem?_eq_none_iff.mp hg0))
            left
            constructor
            · rw [goForward, if_pos ⟨rfl, rfl⟩]
            · rw [specMergeMultiset_start env hauto hcl db mem, hmemnil, hpd0]
              rfl
          · have hrd : SubCursor.read ⟨mem, 0⟩ 0 = (some m0.1, some m0.2) := read_some hg0
            rw [hrd]
            dsimp only
            rcases goForward_C1 env db mem hauto hdb hmem hdbk hmemk hnd
                { cursor := (getNextOnDb env .Normal ⟨db, 0⟩).1, memCursor := ⟨mem, 0⟩,
                  isPrevFromDb := false,
                  currentDbEntry := CursorEntry.empty, currentMemEntry := CursorEntry.empty }
                (some m0.1) (some m0.2) none none
                (pendingDb env db 0) hge rfl
                (Or.inr ⟨m0, rfl, rfl, hg0⟩)
                (Or.inl ⟨rfl, rfl, hpd0⟩) with ⟨hn, hlen, hL⟩ | ⟨y, hy, hinv2, hacc⟩
            · exfalso
              have hlen2 : mem.length ≤ 0 := hlen
              have hlt : 0 < mem.length := by
                by_contra hc
                rw [List.getElem?_eq_none (by omega)] at hg0
                exact absurd hg0 (by simp)
              omega
            · refine Or.inr ⟨y, hy, hinv2, ?_⟩
              dsimp only at hacc
              rw [List.drop_zero] at hacc
              rw [specMergeMultiset_start env hauto hcl db mem]
              exact hacc
        · have h1 : (getNextOnDb env .Normal ⟨db, 0⟩).2.1 = some d2.1 := by rw [hres]
          have h2 : (getNextOnDb env .Normal ⟨db, 0⟩).2.2 = some d2.2 := by rw [hres]
          rw [h1, h2]
          have hLval : pendingDb env db 0 = d2 :: pd2 := by rw [hskip0, hp0]
          have hLfix : pendingDb env db 0 =
              pendingDb env db (getNextOnDb env .Normal ⟨db, 0⟩).1.pos := by
            rw [hLval, pendingDb_cons hg2 hl2, hp2]
          rcases hg0 : mem[0]? with _ | m0
          · have hrd : SubCursor.read ⟨mem, 0⟩ 0 = (none, none) := read_none hg0
            rw [hrd]
            dsimp only
            have hmlen : mem.length ≤ 0 :=
              Nat.le_zero.mpr (Nat.le_zero.mp (List.getElem?_eq_none_iff.mp hg0))
            rcases goForward_C1 env db mem hauto hdb hmem hdbk hmemk hnd
                { cursor := (getNextOnDb env .Normal ⟨db, 0⟩).1, memCursor := ⟨mem, 0⟩,
                  isPrevFromDb := false,
                  currentDbEntry := CursorEntry.empty, currentMemEntry := CursorEntry.empty }
                none none (some d2.1) (some d2.2)
                (pendingDb env db 0) hge rfl
                (Or.inl ⟨rfl, rfl, hmlen⟩)
                (Or.inr ⟨d2, rfl, rfl, hg2, hl2, hLfix⟩) with ⟨hn, hlen, hL⟩ | ⟨y, hy, hinv2, hacc⟩
            · exfalso
              rw [hLval] at hL
              exact absurd hL (by simp)
            · refine Or.inr ⟨y, hy, hinv2, ?_⟩
              dsimp only at hacc
              rw [List.drop_zero] at hacc
              rw [specMergeMultiset_start env hauto hcl db mem]
              exact hacc
          · have hrd : SubCursor.read ⟨mem, 0⟩ 0 = (some m0.1, some m0.2) := read_some hg0
            rw [hrd]
            dsimp only
            rcases goForward_C1 env db mem hauto hdb hmem hdbk hmemk hnd
                { cursor := (getNextOnDb env .Normal ⟨db, 0⟩).1, memCursor := ⟨mem, 0⟩,
                  isPrevFromDb := false,
                  currentDbEntry := CursorEntry.empty, currentMemEntry := CursorEntry.empty }
                (some m0.1) (some m0.2) (some d2.1) (some d2.2)
                (pendingDb env db 0) hge rfl
                (Or.inr ⟨m0, rfl, rfl, hg0⟩)
                (Or.inr ⟨d2, rfl, rfl, hg2, hl2, hLfix⟩) with ⟨hn, hlen, hL⟩ | ⟨y, hy, hinv2, hacc⟩
            · exfalso
              rw [hLval] at hL
              exact absurd hL (by simp)
            · refine Or.inr ⟨y, hy, hinv2, ?_⟩
              dsimp only at hacc
              rw [List.drop_zero] at hacc
              rw [specMergeMultiset_start env hauto hcl db mem]
              exact hacc
      · have hdel' : env.entryDeleted e0.1 = false := by
          revert hdel
          cases env.entryDeleted e0.1 <;> simp
        rw [if_neg (by simp [hdel'])]
        dsimp only
        have hLval : pendingDb env db 0 = e0 :: pendingDb env db (0 + 1) :=
          pendingDb_cons hgd hdel'
        rcases hg0 : mem[0]? with _ | m0
        · have hrd : SubCursor.read ⟨mem, 0⟩ 0 = (none, none) := read_none hg0
          rw [hrd]
          dsimp only
          have hmlen : mem.length ≤ 0 :=
            Nat.le_zero.mpr (Nat.le_zero.mp (List.getElem?_eq_none_iff.mp hg0))
          rcases goForward_C1 env db mem hauto hdb hmem hdbk hmemk hnd
              { cursor := ⟨db, 0⟩, memCursor := ⟨mem, 0⟩, isPrevFromDb := false,
                currentDbEntry := CursorEntry.empty, currentMemEntry := CursorEntry.empty }
              none none (some e0.1) (some e0.2)
              (pendingDb env db 0) rfl rfl
              (Or.inl ⟨rfl, rfl, hmlen⟩)
              (Or.inr ⟨e0, rfl, rfl, hgd, hdel', rfl⟩) with ⟨hn, hlen, hL⟩ | ⟨y, hy, hinv2, hacc⟩
          · exfalso
            rw [hLval] at hL
            exact absurd hL (by simp)
          · refine Or.inr ⟨y, hy, hinv2, ?_⟩
            dsimp only at hacc
            rw [List.drop_zero] at hacc
            rw [specMergeMultiset_start env hauto hcl db mem]
            exact hacc
        · have hrd : SubCursor.read ⟨mem, 0⟩ 0 = (some m0.1, some m0.2) := read_some hg0
          rw [hrd]
          dsimp only
          rcases goForward_C1 env db mem hauto hdb hmem hdbk hmemk hnd
              { cursor := ⟨db, 0⟩, memCursor := ⟨mem, 0⟩, isPrevFromDb := false,
                currentDbEntry := CursorEntry.empty, currentMemEntry := CursorEntry.empty }
              (some m0.1) (some m0.2) (some e0.1) (some e0.2)
              (pendingDb env db 0) rfl rfl
              (Or.inr ⟨m0, rfl, rfl, hg0⟩)
              (Or.inr ⟨e0, rfl, rfl, hgd, hdel', rfl⟩) with ⟨hn, hlen, hL⟩ | ⟨y, hy, hinv2, hacc⟩
          · exfalso
            rw [hLval] at hL
            exact absurd hL (by simp)
          · refine Or.inr ⟨y, hy, hinv2, ?_⟩
            dsimp only at hacc
            rw [List.drop_zero] at hacc
            rw [specMergeMultiset_start env hauto hcl db mem]
            exact hacc

end MemCursor
namespace MemCursor

/-- C1 (amended): on a table without auto-dupsort key conversion, with both
stores sorted in strict merge order with non-empty keys (and strictly
increasing keys when the table is not dup-sorted), a full `First`-then-`Next`
scan reaches null within any sufficient step budget, and the multiset of
yielded entries is the overlay alone when the table is cleared, else the
overlay plus the base entries that survive the tombstones and are not
replaced by an overlay entry per the intersection-skip rules. -/
theorem scan_merge_multiset (env : Env) (db mem : List Entry)
    (hauto : env.autoDup = false)
    (hdb : List.Pairwise entryLt db) (hmem : List.Pairwise entryLt mem)
    (hdbk : keysNonempty db) (hmemk : keysNonempty mem)
    (hnd : env.dupSort = false → List.Pairwise (fun a b : Entry => bytesLt a.1 b.1) db)
    (fuel : Nat) (hfuel : db.length + mem.length < fuel) :
    (scan env fuel (initState db mem)).2 = true ∧
    ((scan env fuel (initState db mem)).1 : Multiset Entry) =
      specMergeMultiset env db mem := by
  have hcs : Multiset.card (specMergeMultiset env db mem) ≤ mem.length + db.length := by
    rw [specMergeMultiset]
    split
    · rw [Multiset.coe_card]
      omega
    · rw [Multiset.card_add, Multiset.coe_card, Multiset.coe_card]
      have h1 := List.length_filter_le (liveEntry env) db
      have h2 := List.length_filter_le
        (fun e => !(mem.any (fun m => replaces env m e))) (db.filter (liveEntry env))
      omega
  rw [scan]
  dsimp only
  rcases MFirst_C1 env db mem hauto hdb hmem hdbk hmemk hnd with
    ⟨hn, hspec⟩ | ⟨y, hy, hinv, hacc⟩
  · have h1 : (MFirst env (initState db mem)).2.1 = none := by rw [hn]
    have h2 : (MFirst env (initState db mem)).2.2 = none := by rw [hn]
    rw [h1, h2]
    refine ⟨rfl, ?_⟩
    rw [hspec]
    rfl
  · have h1 : (MFirst env (initState db mem)).2.1 = some y.1 := by rw [hy]
    have h2 : (MFirst env (initState db mem)).2.2 = some y.2 := by rw [hy]
    rw [h1, h2]
    dsimp only
    have hcard : Multiset.card (C1Rem env db mem (MFirst env (initState db mem)).1)
        < fuel := by
      have hc := congrArg Multiset.card hacc
      rw [Multiset.card_cons] at hc
      omega
    obtain ⟨ht, hlist⟩ := scanFrom_C1 env db mem hauto hdb hmem hdbk hmemk hnd fuel
      (MFirst env (initState db mem)).1 hinv hcard
    refine ⟨ht, ?_⟩
    rw [← Multiset.cons_coe, hlist, hacc]

/-- Modelled from the spec: an auto-dupsort registry entry splitting a
3-byte logical key into a 1-byte physical key plus a 2-byte value prefix,
with the effective key `[1, 2, 3]` tombstoned and the table not cleared. -/
def envAutoC1 : Env :=
  { cfg := some ⟨true, true, 3, 1⟩,
    tableCleared := false,
    entryDeleted := fun k => k == [1, 2, 3] }

/-- C1 counterexample: on an auto-dupsort table the scan keeps a base entry
whose effective key is tombstoned (the initial candidate check in `First`
passes the raw key to the tombstone test), so the yielded multiset differs
from the claim's `(base \ tombstones) ∪ overlay`. -/
theorem scan_merge_multiset_counterexample :
    (scan envAutoC1 3 (initState [([1], [2, 3, 4, 5])] [])).2 = true ∧
    ((scan envAutoC1 3 (initState [([1], [2, 3, 4, 5])] [])).1 : Multiset Entry) ≠
      specMergeMultiset envAutoC1 [([1], [2, 3, 4, 5])] [] := by
  refine ⟨by decide, ?_⟩
  intro h
  have hc := congrArg Multiset.card h
  revert hc
  decide

/-- Modelled from the spec: a plain table (absent from the registry, hence
neither dup-sorted nor auto-dupsort) with the key `[2]` tombstoned and the
table not cleared. -/
def envPlainTomb : Env :=
  { cfg := none, tableCleared := false, entryDeleted := fun k => k == [2] }

/-- Witness for the amended C1 at a concrete input: a plain (non-dup-sort)
table with a tombstoned base key and an overlay entry shadowing another
base key; the scan terminates and yields the predicted multiset. -/
theorem scan_merge_multiset_witness :
    (envPlainTomb.autoDup = false ∧
      List.Pairwise entryLt [([1], [5]), ([2], [6]), ([3], [7])] ∧
      List.Pairwise entryLt [([1], [8]), ([4], [9])] ∧
      keysNonempty [([1], [5]), ([2], [6]), ([3], [7])] ∧
      keysNonempty [([1], [8]), ([4], [9])] ∧
      (3 : Nat) + 2 < 6) ∧
    (scan envPlainTomb 6
        (initState [([1], [5]), ([2], [6]), ([3], [7])] [([1], [8]), ([4], [9])])).2 = true ∧
    ((scan envPlainTomb 6
        (initState [([1], [5]), ([2], [6]), ([3], [7])] [([1], [8]), ([4], [9])])).1 :
        Multiset Entry) =
      specMergeMultiset envPlainTomb [([1], [5]), ([2], [6]), ([3], [7])]
        [([1], [8]), ([4], [9])] :=
  ⟨⟨by decide, by simp [List.pairwise_cons]; decide, by simp [List.pairwise_cons]; decide,
      by simp [keysNonempty], by simp [keysNonempty], by decide⟩,
    scan_merge_multiset envPlainTomb [([1], [5]), ([2], [6]), ([3], [7])]
      [([1], [8]), ([4], [9])] (by decide)
      (by simp [List.pairwise_cons]; decide) (by simp [List.pairwise_cons]; decide)
      (by simp [keysNonempty]) (by simp [keysNonempty])
      (fun _ => by simp [List.pairwise_cons]; decide) 6 (by decide)⟩

end MemCursor
